import Mathlib

/-!
# format-converter: CSV to JSON

A shallow embedding of `pkg/csv/csv.go` (and of `run` in `cmd/csv/csv.go`)
together with the properties of the conversion pipeline.

Conventions of the embedding:

* a Go `string` is a list of Unicode code points (`Str`); the text handled by
  the program is taken to be valid UTF-8, one `Char` per rune;
* a Go `map[string]interface{}` whose values are strings is an association
  list with pairwise distinct keys (`Record`); the iteration order of a Go
  map is unspecified and nothing below depends on the order of the list
  except through `encoding/json`, which sorts the keys;
* the functions of the Go standard library the program calls (`strings`,
  `path/filepath` on a Unix system, `encoding/json`, the field-count check of
  `encoding/csv`) are modelled after their documented behaviour.
-/

namespace FormatConverter

/-- Go strings, as sequences of code points. -/
abbrev Str := List Char

/-- Row objects: `map[string]interface{}` holding string values. -/
abbrev Record := List (Str × Str)

/-! ## `unicode` and `strings` -/

/-- The predicate `unicode.IsSpace`: the code points with the Unicode
White_Space property. -/
def isSpace (c : Char) : Bool :=
  (9 ≤ c.toNat && c.toNat ≤ 13) || c.toNat == 0x20 || c.toNat == 0x85 || c.toNat == 0xA0
    || c.toNat == 0x1680 || (0x2000 ≤ c.toNat && c.toNat ≤ 0x200A)
    || c.toNat == 0x2028 || c.toNat == 0x2029 || c.toNat == 0x202F
    || c.toNat == 0x205F || c.toNat == 0x3000

/-- The function `strings.TrimLeftFunc`. -/
def TrimLeftFunc (s : Str) (f : Char → Bool) : Str := s.dropWhile f

/-- The function `strings.TrimRightFunc`. -/
def TrimRightFunc (s : Str) (f : Char → Bool) : Str := s.rdropWhile f

/-- The function `strings.TrimFunc`. -/
def TrimFunc (s : Str) (f : Char → Bool) : Str := TrimRightFunc (TrimLeftFunc s f) f

/-- The function `strings.TrimSpace`. -/
def TrimSpace (s : Str) : Str := TrimFunc s isSpace

/-- The function `strings.Trim`: leading and trailing code points contained in
`cutset` are removed. -/
def Trim (s cutset : Str) : Str :=
  TrimLeftFunc (TrimRightFunc s (fun c => decide (c ∈ cutset))) (fun c => decide (c ∈ cutset))

/-- The function `strings.TrimSuffix`. -/
def TrimSuffix (s suffix : Str) : Str :=
  if suffix.isSuffixOf s then s.take (s.length - suffix.length) else s

/-! ## Go maps -/

/-- The assignment `m[k] = v`. -/
def mapSet : Record → Str → Str → Record
  | [], k, v => [(k, v)]
  | (k', v') :: m, k, v => if k' = k then (k', v) :: m else (k', v') :: mapSet m k v

/-- The keys of a map. -/
def mapKeys (m : Record) : List Str := m.map Prod.fst

/-! ## `processLine` -/

/-- The cutset of the call `strings.Trim(dataList[i], "\n\" ")`. -/
def valueCutset : Str := ['\n', '"', ' ']

/-- The body of the `for i, name := range headers` loop of `processLine`,
run over the columns paired with their fields. -/
def fillRecord : List (Str × Str) → Record → Record
  | [], m => m
  | (name, field) :: rest, m => fillRecord rest (mapSet m (TrimSpace name) (Trim field valueCutset))

/-- The function `processLine`. -/
def processLine (headers dataList : List Str) : Except String Record :=
  if dataList.length ≠ headers.length then
    Except.error "line doesn't match headers format. Skipping"
  else
    Except.ok (fillRecord (headers.zip dataList) [])


/-! ## `path/filepath` (Unix: the separator is `/`, there is no volume name) -/

/-- The function `os.IsPathSeparator`. -/
def isPathSeparator (c : Char) : Bool := c == '/'

/-- The loop of `filepath.Ext`, scanning from the last code point backwards;
`acc` is the part of the path already passed. -/
def extScan : List Char → Str → Str
  | [], _ => []
  | c :: rest, acc =>
    if isPathSeparator c then []
    else if c = '.' then c :: acc
    else extScan rest (c :: acc)

/-- The function `filepath.Ext`: the suffix beginning at the final dot of the
final element of the path, empty if there is no dot. -/
def Ext (path : Str) : Str := extScan path.reverse []

/-- The function `filepath.Base`. -/
def Base (path : Str) : Str :=
  if path = [] then ['.']
  else
    let stripped := path.rdropWhile isPathSeparator
    let last := (stripped.reverse.takeWhile (fun c => !isPathSeparator c)).reverse
    if last = [] then ['/'] else last

/-- What `filepath.Clean` does with one complete path element, given the
elements kept so far (`out`, last element first): an empty element and `.` are
dropped, `..` removes the last kept element when there is one that is not
itself `..`, is dropped at the root, and is kept otherwise. -/
def cleanElem (rooted : Bool) (out : List Str) (e : Str) : List Str :=
  if e = [] ∨ e = ['.'] then out
  else if e = ['.', '.'] then
    match out with
    | [] => if rooted then [] else [e]
    | top :: rest => if top = ['.', '.'] then e :: out else rest
  else e :: out

/-- The scan of `filepath.Clean` over the path; `cur` is the element being
read. -/
def cleanScan (rooted : Bool) : List Char → Str → List Str → List Str
  | [], cur, out => cleanElem rooted out cur
  | c :: rest, cur, out =>
    if isPathSeparator c then cleanScan rooted rest [] (cleanElem rooted out cur)
    else cleanScan rooted rest (cur ++ [c]) out

/-- The kept elements joined by single separators, after the root if any; the
empty relative path is `.`. -/
def renderPath (rooted : Bool) (elems : List Str) : Str :=
  if rooted then '/' :: List.intercalate ['/'] elems
  else if elems = [] then ['.']
  else List.intercalate ['/'] elems

/-- The function `filepath.Clean`. -/
def Clean (path : Str) : Str :=
  match path with
  | [] => ['.']
  | c :: _ => renderPath (isPathSeparator c) (cleanScan (isPathSeparator c) path [] []).reverse

/-- The function `filepath.Dir`: the path up to and including its last
separator, cleaned. -/
def Dir (path : Str) : Str := Clean (path.rdropWhile (fun c => !isPathSeparator c))

/-- The function `filepath.Join`, for two elements. -/
def Join (a b : Str) : Str :=
  if a = [] then (if b = [] then [] else Clean b)
  else Clean (a ++ '/' :: b)

/-- A path element that `filepath.Clean` keeps as it is: not empty, neither `.`
nor `..`, and free of separators. -/
def properName (e : Str) : Bool :=
  decide (e ≠ []) && decide (e ≠ ['.']) && decide (e ≠ ['.', '.']) && e.all (fun c => !isPathSeparator c)

/-- The shape of the elements `filepath.Clean` keeps (last element first):
proper names, above `..` elements that only a relative path can have. -/
def cleanStack (rooted : Bool) : List Str → Bool
  | [] => true
  | e :: rest =>
    if e = ['.', '.'] then !rooted && rest.all (fun x => decide (x = ['.', '.']))
    else properName e && cleanStack rooted rest

/-- The table `hex` of `encoding/json`. -/
def hexDigit (n : Nat) : Char :=
  if n < 10 then Char.ofNat (48 + n) else Char.ofNat (87 + n)

/-- The table `htmlSafeSet`: the ASCII code points written unchanged inside a
string literal when HTML escaping is on, as it is for `json.Marshal`. -/
def htmlSafe (c : Char) : Bool :=
  0x20 ≤ c.toNat && c.toNat < 0x80 && c != '"' && c != '\\' && c != '<' && c != '>'
    && c != '&'

/-- What `appendString` of `encoding/json` writes for one code point (Go 1.22 and
later; earlier versions write `\u0008` and `\u000c` for backspace and form
feed). -/
def escapeRune (c : Char) : Str :=
  if c.toNat < 0x80 then
    if htmlSafe c then [c]
    else if c = '\\' ∨ c = '"' then ['\\', c]
    else if c.toNat = 8 then ['\\', 'b']
    else if c.toNat = 12 then ['\\', 'f']
    else if c = '\n' then ['\\', 'n']
    else if c = '\r' then ['\\', 'r']
    else if c = '\t' then ['\\', 't']
    else ['\\', 'u', '0', '0', hexDigit (c.toNat / 16), hexDigit (c.toNat % 16)]
  else if c.toNat = 0x2028 ∨ c.toNat = 0x2029 then
    ['\\', 'u', '2', '0', '2', hexDigit (c.toNat % 16)]
  else [c]

/-- The function `appendString` of `encoding/json`: a JSON string literal. -/
def appendString (s : Str) : Str := '"' :: (s.flatMap escapeRune ++ ['"'])

/-- The UTF-8 encoding of a code point. -/
def utf8Encode (c : Char) : List Nat :=
  if c.toNat < 0x80 then [c.toNat]
  else if c.toNat < 0x800 then [0xC0 + c.toNat / 64, 0x80 + c.toNat % 64]
  else if c.toNat < 0x10000 then
    [0xE0 + c.toNat / 4096, 0x80 + c.toNat / 64 % 64, 0x80 + c.toNat % 64]
  else
    [0xF0 + c.toNat / 262144, 0x80 + c.toNat / 4096 % 64, 0x80 + c.toNat / 64 % 64,
      0x80 + c.toNat % 64]

/-- The bytes of a Go string. -/
def utf8Bytes (s : Str) : List Nat := s.flatMap utf8Encode

/-- The function `strings.Compare` on the bytes of two strings. -/
def compareBytes : List Nat → List Nat → Ordering
  | [], [] => Ordering.eq
  | [], _ :: _ => Ordering.lt
  | _ :: _, [] => Ordering.gt
  | a :: as, b :: bs =>
    if a < b then Ordering.lt else if b < a then Ordering.gt else compareBytes as bs

/-- Byte-wise order of two keys: `strings.Compare(a, b) <= 0`. -/
def keyLe (a b : Str) : Bool :=
  decide (compareBytes (utf8Bytes a) (utf8Bytes b) ≠ Ordering.gt)

/-- Insertion of an entry into a list sorted by key. -/
def insertEntry (e : Str × Str) : List (Str × Str) → List (Str × Str)
  | [] => [e]
  | x :: xs => if keyLe e.1 x.1 then e :: x :: xs else x :: insertEntry e xs

/-- The entries of a map in the order in which the map encoder of
`encoding/json` writes them: sorted by key. -/
def sortEntries : Record → List (Str × Str)
  | [] => []
  | e :: m => insertEntry e (sortEntries m)

/-- One entry of a compact object: key, colon, value. -/
def encodeEntry (e : Str × Str) : Str := appendString e.1 ++ ':' :: appendString e.2

/-- A compact object: the entries in the order given, separated by commas,
between braces. -/
def encodeObject (entries : List (Str × Str)) : Str :=
  '{' :: (List.intercalate [','] (entries.map encodeEntry) ++ ['}'])

/-- The function `json.Marshal` on a map of strings: the map encoder sorts the
entries by key and writes them as a compact object. -/
def Marshal (m : Record) : Str := encodeObject (sortEntries m)

/-- The function `appendNewline` of `encoding/json`'s indenter. -/
def appendNewline (pfx indent : Str) (depth : Nat) : Str :=
  '\n' :: (pfx ++ (List.replicate depth indent).flatten)

/-- One entry of an indented object: key, colon, blank, value. -/
def indentEntry (e : Str × Str) : Str := appendString e.1 ++ ':' :: ' ' :: appendString e.2

/-- An indented object, as the indenter of `encoding/json` lays out a compact
object: an empty object stays as it is, otherwise every entry is on a line of
its own at depth one and the closing brace on a line at depth zero. -/
def indentObject (entries : List (Str × Str)) (pfx indent : Str) : Str :=
  match entries with
  | [] => ['{', '}']
  | e :: es =>
    '{' :: (appendNewline pfx indent 1
      ++ List.intercalate (',' :: appendNewline pfx indent 1) ((e :: es).map indentEntry)
      ++ appendNewline pfx indent 0 ++ ['}'])

/-- The function `json.MarshalIndent` on a map of strings: the output of
`Marshal` passed through the indenter. -/
def MarshalIndent (m : Record) (pfx indent : Str) : Str :=
  indentObject (sortEntries m) pfx indent

/-! ## The JSON writer -/

/-- The output file: where it is, what has been written to it, and whether it
has been closed. -/
structure OutFile where
  path : Str
  content : Str
  closed : Bool
deriving DecidableEq, Repr

/-- The path at which `createStringWriter` creates the output file. -/
def finalLocation (csvPath : Str) (pretty : Bool) : Str :=
  let jsonDir := Dir csvPath
  let jsonName :=
    if pretty then (TrimSuffix (Base csvPath) ".csv".toList ++ "-pretty".toList) ++ ".json".toList
    else (TrimSuffix (Base csvPath) ".csv".toList ++ "-compact".toList) ++ ".json".toList
  Join jsonDir jsonName

/-- The function `createStringWriter`: the file is created empty. -/
def createStringWriter (csvPath : Str) (pretty : Bool) : OutFile :=
  { path := finalLocation csvPath pretty, content := [], closed := false }

/-- The closure returned by `createStringWriter`. -/
def writeString (f : OutFile) (data : Str) (close : Bool) : OutFile :=
  { f with content := f.content ++ data, closed := f.closed || close }

/-- The function `getJSONFunc`: the serializer of a row object and the line
break of the mode. -/
def getJSONFunc (pretty : Bool) : (Record → Str) × Str :=
  if pretty then
    (fun record => "   ".toList ++ MarshalIndent record "   ".toList "   ".toList, ['\n'])
  else
    (fun record => Marshal record, [])

/-- The branch `if more` of the loop of `WriteJSONFile`: a separator unless the
record is the first, then the serialized record. -/
def writeRecord (jsonFunc : Record → Str) (breakLine : Str) (f : OutFile) (first : Bool)
    (record : Record) : OutFile :=
  writeString (if !first then writeString f (',' :: breakLine) false else f)
    (jsonFunc record) false

/-- The `for` loop of `WriteJSONFile`, run on the row objects received before
the channel is closed. -/
def writeLoop (jsonFunc : Record → Str) (breakLine : Str) :
    OutFile → Bool → List Record → OutFile
  | f, _, [] => writeString f (breakLine ++ [']']) true
  | f, first, record :: rest =>
    writeLoop jsonFunc breakLine (writeRecord jsonFunc breakLine f first record) false rest

/-- The function `WriteJSONFile`, run on the row objects received before the
channel is closed. -/
def WriteJSONFile (csvPath : Str) (rows : List Record) (pretty : Bool) : OutFile :=
  let f := createStringWriter csvPath pretty
  let f := writeString f ('[' :: (getJSONFunc pretty).2) false
  writeLoop (getJSONFunc pretty).1 (getJSONFunc pretty).2 f true rows

/-- The turns of the loop of `WriteJSONFile` for the records received so far,
the channel still being open. -/
def writeRows (jsonFunc : Record → Str) (breakLine : Str) :
    OutFile → Bool → List Record → OutFile
  | f, _, [] => f
  | f, first, record :: rest =>
    writeRows jsonFunc breakLine (writeRecord jsonFunc breakLine f first record) false rest

/-! ## `encoding/csv` and the record reader -/

/-- The errors other than `io.EOF` that `Reader.Read` returns: `csv.ErrFieldCount`
(in a `*csv.ParseError`), and any other parse or read error. -/
inductive ReadError where
  | fieldCount
  | other
deriving DecidableEq, Repr

/-- What one call of `reader.Read()` returns before the end of the input: the
record, and the error if there is one. -/
abbrev ReadResult := List Str × Option ReadError

/-- The end of `Reader.readRecord`: "check or update the expected fields per
record". As `encoding/csv` documents `FieldsPerRecord`: if it is positive, `Read`
requires each record to have the given number of fields; if it is 0, `Read` sets
it to the number of fields in the first record, so that future records must
have the same field count; if it is negative, no check is made. A record with an
unexpected number of fields is returned along with the error `ErrFieldCount`.
Returns the error and the new `FieldsPerRecord`. -/
def checkFieldCount (fieldsPerRecord : Int) (dst : List Str) : Option ReadError × Int :=
  if fieldsPerRecord > 0 then
    if (dst.length : Int) ≠ fieldsPerRecord then (some ReadError.fieldCount, fieldsPerRecord)
    else (none, fieldsPerRecord)
  else if fieldsPerRecord = 0 then (none, (dst.length : Int))
  else (none, fieldsPerRecord)

/-- The results of the successive calls of `reader.Read()` on an input that
splits into the given records without parse or read error, for a reader whose
`FieldsPerRecord` is as given; after them `Read` returns `io.EOF`. -/
def readAll : Int → List (List Str) → List ReadResult
  | _, [] => []
  | fieldsPerRecord, dst :: rest =>
    (dst, (checkFieldCount fieldsPerRecord dst).1)
      :: readAll (checkFieldCount fieldsPerRecord dst).2 rest

/-- What the reader goroutine has done when it stops: the row objects sent on
the channel (in order), the lines reported and skipped, whether the channel was
closed, and the status of `os.Exit` if the process was terminated. -/
structure ReaderOutcome where
  sent : List Record
  skipped : List (List Str)
  closed : Bool
  exitStatus : Option Nat
deriving DecidableEq, Repr

/-- The `for` loop of `ProcessCSVFile`, on the results of the successive calls of
`reader.Read()` (the end of the list is `io.EOF`), every send being received. -/
def processLoop (headers : List Str) : List ReadResult → ReaderOutcome
  | [] => { sent := [], skipped := [], closed := true, exitStatus := none }
  | (_, some _) :: _ => { sent := [], skipped := [], closed := false, exitStatus := some 1 }
  | (line, none) :: rest =>
    match processLine headers line with
    | Except.error _ =>
      { processLoop headers rest with skipped := line :: (processLoop headers rest).skipped }
    | Except.ok record =>
      { processLoop headers rest with sent := record :: (processLoop headers rest).sent }

/-- The function `ProcessCSVFile` on a file that opens and splits into the given
records (for the separator chosen): the reader is the one `csv.NewReader`
returns, whose `FieldsPerRecord` is zero, and the program does not change it. -/
def ProcessCSVFile (records : List (List Str)) : ReaderOutcome :=
  match readAll 0 records with
  | [] => { sent := [], skipped := [], closed := false, exitStatus := some 1 }
  | (_, some _) :: _ => { sent := [], skipped := [], closed := false, exitStatus := some 1 }
  | (headers, none) :: rest => processLoop headers rest

/-! ## `run`: validation, then the reader and the writer as two goroutines -/

/-- The struct `InputFile`. -/
structure InputFile where
  Filepath : Str
  separator : Str
  Pretty : Bool
deriving DecidableEq, Repr

/-- The function `GetFileData`; `cobra.ExactArgs(1)` has checked that there is
one argument. -/
def GetFileData (fileLocation : Str) (pretty : Bool) (separator : Str) :
    Except String InputFile :=
  if !(decide (separator = "comma".toList) || decide (separator = "semicolon".toList)) then
    Except.error "only comma or semicolon separators are allowed"
  else
    Except.ok { Filepath := fileLocation, separator := separator, Pretty := pretty }

/-- The function `IsValidFile`; `fileExists` is what `os.Stat` finds. -/
def IsValidFile (filename : Str) (fileExists : Bool) : Except String Bool :=
  if Ext filename ≠ ".csv".toList then Except.error "file is not CSV"
  else if !fileExists then Except.error "file does not exist"
  else Except.ok true

/-- The two goroutines started by `run`. -/
inductive Goroutine where
  | reader
  | writer
deriving DecidableEq, Repr

/-- Where `ProcessCSVFile` stands: before reading the header, at the top of its
loop with the results `Read` has yet to return, blocked on the send of a
record, or returned after closing the channel. -/
inductive ReaderPC where
  | start
  | reading (headers : List Str) (rest : List ReadResult)
  | sending (record : Record) (headers : List Str) (rest : List ReadResult)
  | finished
deriving DecidableEq, Repr

/-- Where `WriteJSONFile` stands: before `createStringWriter`, before writing
the opening bracket, blocked on the receive, holding a record it has just
received, about to serialize and write that record (the separator, if any,
being written), or returned. -/
inductive WriterPC where
  | start
  | created
  | receiving (first : Bool)
  | holding (first : Bool) (record : Record)
  | serializing (record : Record)
  | finished
deriving DecidableEq, Repr

/-- The state of a run: the two goroutines, the output file once it is
created, whether the channel is closed, whether completion was signalled, and
the exit status once the process has ended. -/
structure RunState where
  reader : ReaderPC
  writer : WriterPC
  file : Option OutFile
  chanClosed : Bool
  done : Bool
  exitStatus : Option Nat
deriving DecidableEq, Repr

/-- The state in which `run` starts the goroutines. -/
def startState : RunState :=
  { reader := ReaderPC.start, writer := WriterPC.start, file := none, chanClosed := false,
    done := false, exitStatus := none }

/-- The function `ExitGracefully`: the error is reported and the process ends
with status 1 (`os.Exit(1)`). The function `check` calls it when the error it
is given is not nil. -/
def ExitGracefully (s : RunState) : RunState := { s with exitStatus := some 1 }

/-- The hand-over of a record on the unbuffered channel: the send of the reader
and the receive of the writer complete together; the reader goes back to the
top of its loop, the writer holds the record and has yet to write it. -/
def handOver (s : RunState) (record : Record) (headers : List Str)
    (rest : List ReadResult) (first : Bool) : RunState :=
  { s with
    reader := ReaderPC.reading headers rest,
    writer := WriterPC.holding first record }

/-- One step of the reader goroutine (`ProcessCSVFile`) on a file that splits
into the given records: the header is read first (`io.EOF` there fails the
`check`), then each turn of the loop reads one record. -/
def stepReader (records : List (List Str)) (s : RunState) : RunState :=
  match s.reader with
  | ReaderPC.start =>
    match readAll 0 records with
    | [] => ExitGracefully s
    | (_, some _) :: _ => ExitGracefully s
    | (headers, none) :: rest => { s with reader := ReaderPC.reading headers rest }
  | ReaderPC.reading _ [] => { s with reader := ReaderPC.finished, chanClosed := true }
  | ReaderPC.reading _ ((_, some _) :: _) => ExitGracefully s
  | ReaderPC.reading headers ((line, none) :: rest) =>
    match processLine headers line with
    | Except.error _ => { s with reader := ReaderPC.reading headers rest }
    | Except.ok record => { s with reader := ReaderPC.sending record headers rest }
  | ReaderPC.sending record headers rest =>
    match s.writer with
    | WriterPC.receiving first => handOver s record headers rest first
    | _ => s
  | ReaderPC.finished => s

/-- One step of the writer goroutine (`WriteJSONFile`): the creation of the
file, the opening bracket, a receive, the separator before a record that is
not the first, the serialized record, or, once the channel is closed, the
closing bracket, after which it signals completion, on which `run` returns and
the process ends with status 0. -/
def stepWriter (csvPath : Str) (pretty : Bool) (s : RunState) : RunState :=
  match s.writer, s.file with
  | WriterPC.start, _ =>
    { s with writer := WriterPC.created, file := some (createStringWriter csvPath pretty) }
  | WriterPC.created, some f =>
    { s with
      writer := WriterPC.receiving true,
      file := some (writeString f ('[' :: (getJSONFunc pretty).2) false) }
  | WriterPC.holding first record, some f =>
    { s with
      writer := WriterPC.serializing record,
      file := some (if !first then writeString f (',' :: (getJSONFunc pretty).2) false else f) }
  | WriterPC.serializing record, some f =>
    { s with
      writer := WriterPC.receiving false,
      file := some (writeString f ((getJSONFunc pretty).1 record) false) }
  | WriterPC.receiving first, some f =>
    match s.reader with
    | ReaderPC.sending record headers rest => handOver s record headers rest first
    | _ =>
      if s.chanClosed then
        { s with
          writer := WriterPC.finished,
          file := some (writeString f ((getJSONFunc pretty).2 ++ [']']) true),
          done := true, exitStatus := some 0 }
      else s
  | _, _ => s

/-- One step of the process: the scheduler lets one goroutine run, unless the
process has ended. -/
def step (csvPath : Str) (pretty : Bool) (records : List (List Str)) (s : RunState)
    (g : Goroutine) : RunState :=
  if s.exitStatus.isSome then s
  else
    match g with
    | Goroutine.reader => stepReader records s
    | Goroutine.writer => stepWriter csvPath pretty s

/-- The function `run` under a schedule of the two goroutines, on an input file
that splits into the given records: the arguments are validated first; an error
there ends the process before either goroutine is started. -/
def run (fileLocation separator : Str) (pretty fileExists : Bool)
    (records : List (List Str)) (schedule : List Goroutine) : RunState :=
  match GetFileData fileLocation pretty separator with
  | Except.error _ => ExitGracefully startState
  | Except.ok fileData =>
    match IsValidFile fileData.Filepath fileExists with
    | Except.error _ => ExitGracefully startState
    | Except.ok _ =>
      schedule.foldl (step fileData.Filepath fileData.Pretty records) startState

/-- The output file of a run whose writer has written the opening bracket and
the given records. -/
def openFile (csvPath : Str) (pretty : Bool) (received : List Record) : OutFile :=
  writeRows (getJSONFunc pretty).1 (getJSONFunc pretty).2
    (writeString (createStringWriter csvPath pretty) ('[' :: (getJSONFunc pretty).2) false)
    true received

/-- The writer's part of the invariant of a run, `received` being the records
handed over so far: the file holds all of them, or all but the last, which the
writer holds and is about to write. -/
def writerInv (csvPath : Str) (pretty : Bool) (received : List Record) (s : RunState) : Prop :=
  (s.writer = WriterPC.start ∧ s.file = none ∧ received = []) ∨
  (s.writer = WriterPC.created ∧ s.file = some (createStringWriter csvPath pretty)
    ∧ received = []) ∨
  (s.writer = WriterPC.receiving (decide (received = []))
    ∧ s.file = some (openFile csvPath pretty received)) ∨
  (∃ earlier record, received = earlier ++ [record]
    ∧ s.writer = WriterPC.holding (decide (earlier = [])) record
    ∧ s.file = some (openFile csvPath pretty earlier)) ∨
  (∃ earlier record, received = earlier ++ [record]
    ∧ s.writer = WriterPC.serializing record
    ∧ s.file = some (if !decide (earlier = []) then
        writeString (openFile csvPath pretty earlier) (',' :: (getJSONFunc pretty).2) false
      else openFile csvPath pretty earlier))

/-- The reader's part of the invariant of a run: with the records handed over so
far, what is still to come makes up what `ProcessCSVFile` sends in all (`sent`). -/
def readerInv (records : List (List Str)) (sent received : List Record) (s : RunState) : Prop :=
  (s.reader = ReaderPC.start ∧ received = [] ∧ sent = (ProcessCSVFile records).sent
    ∧ s.chanClosed = false) ∨
  (∃ headers rest, s.reader = ReaderPC.reading headers rest
    ∧ sent = received ++ (processLoop headers rest).sent ∧ s.chanClosed = false) ∨
  (∃ record headers rest, s.reader = ReaderPC.sending record headers rest
    ∧ sent = received ++ record :: (processLoop headers rest).sent ∧ s.chanClosed = false) ∨
  (s.reader = ReaderPC.finished ∧ sent = received ∧ s.chanClosed = true)

/-- The invariant of a run on a file that splits into `records`: the process
has ended with status 1 before completion, or it has completed with the output
file that `WriteJSONFile` writes from the records `ProcessCSVFile` sends, or it
is on its way. -/
def runInv (csvPath : Str) (pretty : Bool) (records : List (List Str)) (s : RunState) : Prop :=
  (s.exitStatus = some 1 ∧ s.done = false) ∨
  (s.exitStatus = some 0 ∧ s.done = true ∧
    s.file = some (WriteJSONFile csvPath (ProcessCSVFile records).sent pretty)) ∨
  (s.exitStatus = none ∧ s.done = false ∧
    ∃ received, writerInv csvPath pretty received s ∧
      readerInv records (ProcessCSVFile records).sent received s)

/-! ## JSON text: string literals and the characters between them -/

/-- Where a scan of JSON text stands: between string literals, inside one, or
inside one just after a backslash. -/
inductive ScanState where
  | outside
  | inString
  | escaped
deriving DecidableEq, Repr

/-- One step of the scan: a double quote opens a literal, and closes it unless
it follows a backslash. -/
def scanStep : ScanState → Char → ScanState
  | ScanState.outside, c => if c = '"' then ScanState.inString else ScanState.outside
  | ScanState.inString, c =>
    if c = '"' then ScanState.outside
    else if c = '\\' then ScanState.escaped
    else ScanState.inString
  | ScanState.escaped, _ => ScanState.inString

/-- The state of the scan after a text. -/
def scanEnd (st : ScanState) (s : Str) : ScanState := s.foldl scanStep st

/-- A filter along the scan: a code point between string literals is kept when
`keepOutside` holds of it, a code point of a string literal (its quotes
included) when `keepInside` is set. -/
def scanFilter (keepOutside : Char → Bool) (keepInside : Bool) : ScanState → Str → Str
  | _, [] => []
  | st, c :: rest =>
    if (if st = ScanState.outside ∧ c ≠ '"' then keepOutside c else keepInside) then
      c :: scanFilter keepOutside keepInside (scanStep st c) rest
    else scanFilter keepOutside keepInside (scanStep st c) rest

/-- The code points of a JSON text that lie outside its string literals. -/
def outsideLiterals (s : Str) : Str := scanFilter (fun _ => true) false ScanState.outside s

/-- A JSON text with every whitespace code point that lies outside a string
literal deleted. -/
def stripWhitespace (s : Str) : Str :=
  scanFilter (fun c => !isSpace c) true ScanState.outside s

/-- Line feed and carriage return. -/
def isLineBreak (c : Char) : Bool := c == '\n' || c == '\r'

/-! # Properties -/

/-! ## Maps -/

theorem mem_mapKeys_mapSet (m : Record) (k v k' : Str) :
    k' ∈ mapKeys (mapSet m k v) ↔ k' = k ∨ k' ∈ mapKeys m := by
  induction m with
  | nil => simp [mapSet, mapKeys]
  | cons p m ih =>
    obtain ⟨a, b⟩ := p
    by_cases h : a = k
    · subst h
      simp [mapSet, mapKeys]
    · have ih' : k' ∈ List.map Prod.fst (mapSet m k v) ↔ k' = k ∨ k' ∈ List.map Prod.fst m := ih
      simp only [mapSet, h, if_false, mapKeys, List.map_cons, List.mem_cons, ih']
      tauto

theorem nodup_mapKeys_mapSet (m : Record) (k v : Str) (h : (mapKeys m).Nodup) :
    (mapKeys (mapSet m k v)).Nodup := by
  induction m with
  | nil => simp [mapSet, mapKeys]
  | cons p m ih =>
    obtain ⟨a, b⟩ := p
    have h2 : a ∉ mapKeys m ∧ (mapKeys m).Nodup := by
      simpa [mapKeys] using h
    by_cases hk : a = k
    · subst hk
      simpa [mapSet, mapKeys] using h
    · have hnot : a ∉ mapKeys (mapSet m k v) := by
        rw [mem_mapKeys_mapSet]
        rintro (e | e)
        · exact hk e
        · exact h2.1 e
      have hn := ih h2.2
      simp only [mapSet, hk, if_false]
      exact List.nodup_cons.mpr ⟨hnot, hn⟩

/-! ## `processLine` -/

theorem mem_mapKeys_fillRecord (cols : List (Str × Str)) (m : Record) (k : Str) :
    k ∈ mapKeys (fillRecord cols m) ↔
      k ∈ cols.map (fun c => TrimSpace c.1) ∨ k ∈ mapKeys m := by
  induction cols generalizing m with
  | nil => simp [fillRecord]
  | cons c cols ih =>
    obtain ⟨name, field⟩ := c
    simp only [fillRecord, ih, mem_mapKeys_mapSet, List.map_cons, List.mem_cons]
    tauto

theorem nodup_mapKeys_fillRecord (cols : List (Str × Str)) (m : Record)
    (h : (mapKeys m).Nodup) : (mapKeys (fillRecord cols m)).Nodup := by
  induction cols generalizing m with
  | nil => simpa [fillRecord] using h
  | cons c cols ih =>
    obtain ⟨name, field⟩ := c
    exact ih _ (nodup_mapKeys_mapSet m _ _ h)

theorem processLine_ok (headers dataList : List Str) (hlen : dataList.length = headers.length) :
    processLine headers dataList = Except.ok (fillRecord (headers.zip dataList) []) := by
  simp [processLine, hlen]

theorem processLine_ok_inv (headers dataList : List Str) (m : Record)
    (h : processLine headers dataList = Except.ok m) :
    dataList.length = headers.length ∧ m = fillRecord (headers.zip dataList) [] := by
  unfold processLine at h
  by_cases hlen : dataList.length = headers.length
  · simp only [hlen, ne_eq, not_true_eq_false, if_false, Except.ok.injEq] at h
    exact ⟨hlen, h.symm⟩
  · simp [hlen] at h

theorem processLine_error (headers dataList : List Str)
    (hlen : dataList.length ≠ headers.length) :
    processLine headers dataList =
      Except.error "line doesn't match headers format. Skipping" := by
  simp [processLine, hlen]

theorem map_trimSpace_zip (headers dataList : List Str)
    (hlen : dataList.length = headers.length) :
    (headers.zip dataList).map (fun c => TrimSpace c.1) = headers.map TrimSpace := by
  have h : (headers.zip dataList).map Prod.fst = headers :=
    List.map_fst_zip _ _ (le_of_eq hlen.symm)
  calc (headers.zip dataList).map (fun c => TrimSpace c.1)
      = ((headers.zip dataList).map Prod.fst).map TrimSpace := by
        rw [List.map_map]; rfl
    _ = headers.map TrimSpace := by rw [h]

theorem fillRecord_zip_keys (headers dataList : List Str)
    (hlen : dataList.length = headers.length) :
    (mapKeys (fillRecord (headers.zip dataList) [])).Nodup ∧
    (∀ k, k ∈ mapKeys (fillRecord (headers.zip dataList) []) ↔ k ∈ headers.map TrimSpace) := by
  refine ⟨nodup_mapKeys_fillRecord _ _ (by simp [mapKeys]), ?_⟩
  intro k
  rw [mem_mapKeys_fillRecord, map_trimSpace_zip headers dataList hlen]
  simp [mapKeys]

theorem intercalate_cons_eq (sep x : Str) (xs : List Str) :
    List.intercalate sep (x :: xs) = x ++ (xs.map (fun y => sep ++ y)).flatten := by
  induction xs generalizing x with
  | nil => simp [List.intercalate]
  | cons y ys ih =>
    have h := ih y
    simp only [List.intercalate, List.intersperse, List.flatten_cons, List.map_cons] at h ⊢
    rw [h]
    simp

theorem writeLoop_content_not_first (s : Record → Str) (b : Str) (f : OutFile)
    (rows : List Record) :
    (writeLoop s b f false rows).content =
      f.content ++ ((rows.map (fun r => (',' :: b) ++ s r)).flatten ++ (b ++ [']'])) := by
  induction rows generalizing f with
  | nil => simp [writeLoop, writeString]
  | cons r rows ih =>
    simp [writeLoop, writeRecord, writeString, ih, List.append_assoc]

theorem writeLoop_closed (s : Record → Str) (b : Str) (f : OutFile) (first : Bool)
    (rows : List Record) : (writeLoop s b f first rows).closed = true := by
  induction rows generalizing f first with
  | nil => simp [writeLoop, writeString]
  | cons r rows ih => simp [writeLoop, ih]

theorem writeLoop_path (s : Record → Str) (b : Str) (f : OutFile) (first : Bool)
    (rows : List Record) : (writeLoop s b f first rows).path = f.path := by
  induction rows generalizing f first with
  | nil => simp [writeLoop, writeString]
  | cons r rows ih =>
    cases first <;> simp [writeLoop, writeRecord, ih, writeString]

theorem writeLoop_content_first (s : Record → Str) (b : Str) (f : OutFile)
    (rows : List Record) :
    (writeLoop s b f true rows).content =
      f.content ++ (List.intercalate (',' :: b) (rows.map s) ++ (b ++ [']'])) := by
  cases rows with
  | nil => simp [writeLoop, writeString, List.intercalate]
  | cons r rows =>
    simp only [writeLoop, writeRecord, Bool.not_true, Bool.false_eq_true, if_false,
      List.map_cons]
    rw [writeLoop_content_not_first, intercalate_cons_eq]
    simp [writeString, List.append_assoc, List.map_map, Function.comp_def]

theorem WriteJSONFile_content (csvPath : Str) (rows : List Record) (pretty : Bool) :
    (WriteJSONFile csvPath rows pretty).content =
      '[' :: ((getJSONFunc pretty).2
        ++ (List.intercalate (',' :: (getJSONFunc pretty).2) (rows.map (getJSONFunc pretty).1)
        ++ ((getJSONFunc pretty).2 ++ [']']))) := by
  simp [WriteJSONFile, writeLoop_content_first, writeString, createStringWriter]

/-- C2. For every finite sequence of row objects `r1..rn` (`n ≥ 0`) received
before the channel is closed, `WriteJSONFile` writes exactly
`"[" + b + s(r1) + "," + b + s(r2) + ... + "," + b + s(rn) + b + "]"`, where `b` is
the line break of the mode (empty in compact mode, one line feed in pretty mode)
and `s` the serializer of the mode, both as returned by `getJSONFunc`: the
elements are joined by `"," + b`, with no separator before the first or after the
last, and the file is closed afterwards. The two rows of `Test_writeJSONFile`
give the expected compact text, and no row at all gives `[]` in compact mode. -/
theorem WriteJSONFile_output (csvPath : Str) (rows : List Record) (pretty : Bool) :
    (WriteJSONFile csvPath rows pretty).content =
        "[".toList ++ (getJSONFunc pretty).2
          ++ List.intercalate (",".toList ++ (getJSONFunc pretty).2)
              (rows.map (getJSONFunc pretty).1)
          ++ (getJSONFunc pretty).2 ++ "]".toList ∧
    (getJSONFunc pretty).2 = (if pretty then "\n".toList else "".toList) ∧
    (WriteJSONFile csvPath rows pretty).closed = true ∧
    (WriteJSONFile "compact.csv".toList
        [[("COL1".toList, "1".toList), ("COL2".toList, "2".toList), ("COL3".toList, "3".toList)],
         [("COL1".toList, "4".toList), ("COL2".toList, "5".toList), ("COL3".toList, "6".toList)]]
        false).content =
      ("[\x7b\"COL1\":\"1\",\"COL2\":\"2\",\"COL3\":\"3\"\x7d,"
        ++ "\x7b\"COL1\":\"4\",\"COL2\":\"5\",\"COL3\":\"6\"\x7d]").toList ∧
    (WriteJSONFile csvPath [] false).content = "[]".toList := by
  refine ⟨?_, ?_, ?_, ?_, ?_⟩
  · rw [WriteJSONFile_content]
    simp [List.append_assoc]
  · cases pretty <;> rfl
  · simp [WriteJSONFile, writeLoop_closed]
  · rfl
  · rfl

/-! ## The record reader -/

theorem processLoop_cons_ok (headers line : List Str) (rest : List ReadResult) :
    (processLoop headers ((line, none) :: rest)).sent =
        (match processLine headers line with
          | Except.ok record => [record]
          | Except.error _ => []) ++ (processLoop headers rest).sent ∧
    (processLoop headers ((line, none) :: rest)).closed = (processLoop headers rest).closed ∧
    (processLoop headers ((line, none) :: rest)).exitStatus
      = (processLoop headers rest).exitStatus := by
  cases h : processLine headers line <;> simp [processLoop, h]

/-- The row objects sent when every call of `Read` succeeds: the conversions of
the records whose field count is that of the header, in the order of the
input. -/
theorem processLoop_sent (headers : List Str) (results : List ReadResult)
    (hok : ∀ r ∈ results, r.2 = none) :
    (processLoop headers results).sent =
        (results.filter (fun r => r.1.length = headers.length)).map
          (fun r => fillRecord (headers.zip r.1) []) ∧
    (processLoop headers results).closed = true ∧
    (processLoop headers results).exitStatus = none := by
  induction results with
  | nil => simp [processLoop]
  | cons r results ih =>
    obtain ⟨line, err⟩ := r
    have herr : err = none := hok (line, err) (List.mem_cons_self _ _)
    subst herr
    have ih' := ih (fun r hr => hok r (List.mem_cons_of_mem _ hr))
    obtain ⟨h1, h2, h3⟩ := processLoop_cons_ok headers line results
    refine ⟨?_, h2.trans ih'.2.1, h3.trans ih'.2.2⟩
    rw [h1, ih'.1]
    by_cases hlen : line.length = headers.length
    · simp [processLine_ok headers line hlen, List.filter_cons, hlen]
    · simp [processLine_error headers line hlen, List.filter_cons, hlen]

theorem processLoop_skipped (headers : List Str) (results : List ReadResult)
    (hok : ∀ r ∈ results, r.2 = none) :
    (processLoop headers results).skipped =
        (results.filter (fun r => r.1.length ≠ headers.length)).map Prod.fst := by
  induction results with
  | nil => simp [processLoop]
  | cons r results ih =>
    obtain ⟨line, err⟩ := r
    have herr : err = none := hok (line, err) (List.mem_cons_self _ _)
    subst herr
    have ih' := ih (fun r hr => hok r (List.mem_cons_of_mem _ hr))
    by_cases hlen : line.length = headers.length
    · simp [processLoop, processLine_ok headers line hlen, List.filter_cons, hlen, ih']
    · simp [processLoop, processLine_error headers line hlen, List.filter_cons, hlen, ih']

theorem filter_length_compl {α : Type} (p : α → Bool) (l : List α) :
    (l.filter p).length = l.length - (l.filter (fun a => !p a)).length := by
  induction l with
  | nil => simp
  | cons a l ih =>
    have hle : (l.filter (fun a => !p a)).length ≤ l.length := List.length_filter_le _ _
    cases h : p a
    · simp only [List.filter_cons, h, Bool.not_false, if_true, List.length_cons, ih,
        Bool.false_eq_true, if_false]
      omega
    · simp only [List.filter_cons, h, Bool.not_true, if_true, List.length_cons, ih,
        Bool.false_eq_true, if_false]
      omega

theorem length_eq_dedup_of_keys (m : Record) (l : List Str) (hnd : (mapKeys m).Nodup)
    (hmem : ∀ k, k ∈ mapKeys m ↔ k ∈ l) : m.length = l.dedup.length := by
  have hperm : (mapKeys m).Perm l.dedup :=
    (List.perm_ext_iff_of_nodup hnd (List.nodup_dedup l)).mpr
      (fun k => by rw [hmem k, List.mem_dedup])
  have := hperm.length_eq
  simpa [mapKeys] using this

/-- C5 (amended). If `processLine` returns a row object, then the data row has
exactly as many fields as the header has columns, and the number of entries of
the row object is the number of distinct trimmed header names: at most the
number of header columns, and equal to it exactly when the trimmed header names
are pairwise distinct. A data row whose field count differs from the header is
rejected with an error, and the reader's loop sends only conversions of records
whose field count is that of the header. -/
theorem processLine_entry_count (headers dataList : List Str) (m : Record)
    (h : processLine headers dataList = Except.ok m) :
    dataList.length = headers.length ∧
    m.length = (headers.map TrimSpace).dedup.length ∧
    m.length ≤ headers.length ∧
    (m.length = headers.length ↔ (headers.map TrimSpace).Nodup) ∧
    (∀ other : List Str, other.length ≠ headers.length →
      ∃ e, processLine headers other = Except.error e) ∧
    (∀ (records : List (List Str)) (r : Record),
      r ∈ (processLoop headers (records.map (fun l => (l, none)))).sent →
      ∃ line ∈ records, line.length = headers.length ∧
        processLine headers line = Except.ok r) := by
  obtain ⟨hlen, hm⟩ := processLine_ok_inv headers dataList m h
  subst hm
  obtain ⟨hnd, hmem⟩ := fillRecord_zip_keys headers dataList hlen
  have hcount := length_eq_dedup_of_keys _ _ hnd hmem
  have hsub : ((headers.map TrimSpace).dedup).Sublist (headers.map TrimSpace) :=
    List.dedup_sublist _
  have hle : (headers.map TrimSpace).dedup.length ≤ headers.length := by
    simpa using hsub.length_le
  refine ⟨hlen, hcount, hcount ▸ hle, ?_, ?_, ?_⟩
  · rw [hcount]
    constructor
    · intro he
      have heq : (headers.map TrimSpace).dedup = headers.map TrimSpace :=
        hsub.eq_of_length (by simpa using he)
      rw [← heq]
      exact List.nodup_dedup _
    · intro hnd'
      rw [hnd'.dedup, List.length_map]
  · intro other hne
    exact ⟨_, processLine_error headers other hne⟩
  · intro records r hr
    have hok : ∀ x ∈ records.map (fun l => ((l, none) : ReadResult)), x.2 = none := by
      intro x hx
      obtain ⟨a, _, rfl⟩ := List.mem_map.mp hx
      rfl
    rw [(processLoop_sent headers _ hok).1] at hr
    obtain ⟨x, hx, rfl⟩ := List.mem_map.mp hr
    obtain ⟨hxmem, hxlen⟩ := List.mem_filter.mp hx
    obtain ⟨line, hline, rfl⟩ := List.mem_map.mp hxmem
    have hl : line.length = headers.length := by simpa using hxlen
    exact ⟨line, hline, hl, processLine_ok headers line hl⟩

/-- A header with two columns named `A` (the second with a leading blank) and a
two-field row: the conversion succeeds. -/
theorem processLine_entry_count_witness :
    processLine ["A".toList, " A".toList] ["1".toList, "2".toList]
        = Except.ok [("A".toList, "2".toList)] ∧
    (["1".toList, "2".toList].length = ["A".toList, " A".toList].length ∧
      [("A".toList, "2".toList)].length
        = (["A".toList, " A".toList].map TrimSpace).dedup.length ∧
      [("A".toList, "2".toList)].length ≤ ["A".toList, " A".toList].length ∧
      ([("A".toList, "2".toList)].length = ["A".toList, " A".toList].length ↔
        (["A".toList, " A".toList].map TrimSpace).Nodup) ∧
      (∀ other : List Str, other.length ≠ ["A".toList, " A".toList].length →
        ∃ e, processLine ["A".toList, " A".toList] other = Except.error e) ∧
      (∀ (records : List (List Str)) (r : Record),
        r ∈ (processLoop ["A".toList, " A".toList] (records.map (fun l => (l, none)))).sent →
        ∃ line ∈ records, line.length = ["A".toList, " A".toList].length ∧
          processLine ["A".toList, " A".toList] line = Except.ok r)) :=
  ⟨rfl, processLine_entry_count _ _ _ rfl⟩

/-- C5 as stated fails when two header names coincide after trimming: the row
object returned has one entry although the header has two columns. -/
theorem processLine_entries_counterexample :
    processLine ["A".toList, " A".toList] ["1".toList, "2".toList]
        = Except.ok [("A".toList, "2".toList)] ∧
    [("A".toList, "2".toList)].length ≠ ["A".toList, " A".toList].length :=
  ⟨rfl, by decide⟩

theorem readAll_map_fst (fieldsPerRecord : Int) (records : List (List Str)) :
    (readAll fieldsPerRecord records).map Prod.fst = records := by
  induction records generalizing fieldsPerRecord with
  | nil => simp [readAll]
  | cons r records ih => simp [readAll, ih]

theorem processLoop_no_exit (headers : List Str) (results : List ReadResult)
    (h : (processLoop headers results).exitStatus = none) : ∀ r ∈ results, r.2 = none := by
  induction results with
  | nil => simp
  | cons r results ih =>
    obtain ⟨line, err⟩ := r
    cases err with
    | some e => simp [processLoop] at h
    | none =>
      rw [(processLoop_cons_ok headers line results).2.2] at h
      intro r hr
      rcases List.mem_cons.mp hr with hr | hr
      · rw [hr]
      · exact ih h r hr

theorem processLoop_sent_length (headers : List Str) (results : List ReadResult)
    (hok : ∀ r ∈ results, r.2 = none) :
    (processLoop headers results).sent.length =
      (results.map Prod.fst).length
        - ((results.map Prod.fst).filter (fun r => r.length ≠ headers.length)).length := by
  rw [(processLoop_sent headers results hok).1, List.length_map,
    filter_length_compl (fun r : ReadResult => decide (r.1.length = headers.length)) results,
    List.length_map]
  congr 1
  induction results with
  | nil => simp
  | cons r results ih =>
    have ih' := ih (fun r hr => hok r (List.mem_cons_of_mem _ hr))
    by_cases hlen : r.1.length = headers.length
    · simpa [List.filter_cons, hlen] using ih'
    · simpa [List.filter_cons, hlen] using ih'

/-- The records at which a reader whose `FieldsPerRecord` is positive fails. -/
theorem readAll_positive (n : Int) (hn : 0 < n) (records : List (List Str)) :
    readAll n records =
      records.map (fun r =>
        (r, if (r.length : Int) ≠ n then some ReadError.fieldCount else none)) := by
  induction records with
  | nil => simp [readAll]
  | cons r records ih =>
    by_cases h : (r.length : Int) = n
    · simp [readAll, checkFieldCount, hn, h, ih]
    · simp [readAll, checkFieldCount, hn, h, ih]

/-- What `ProcessCSVFile` does at a data record whose field count differs from
that of a (non-empty) header: `Read` returns `ErrFieldCount` for it and the
process is terminated with status 1; the record is not skipped, and no later
record is converted. -/
theorem ProcessCSVFile_mismatch (headers line : List Str) (before after : List (List Str))
    (hne : headers ≠ []) (hbefore : ∀ r ∈ before, r.length = headers.length)
    (hline : line.length ≠ headers.length) :
    ProcessCSVFile (headers :: (before ++ line :: after)) =
      { sent := before.map (fun r => fillRecord (headers.zip r) []),
        skipped := [], closed := false, exitStatus := some 1 } := by
  have hpos : (0 : Int) < (headers.length : Int) := by
    have : 0 < headers.length := List.length_pos.mpr hne
    exact_mod_cast this
  have hne0 : ¬ ((headers.length : Int) = 0) := ne_of_gt hpos
  have hrun : ProcessCSVFile (headers :: (before ++ line :: after)) =
      processLoop headers (readAll (headers.length : Int) (before ++ line :: after)) := by
    simp [ProcessCSVFile, readAll, checkFieldCount]
  rw [hrun, readAll_positive _ hpos]
  clear hrun
  induction before with
  | nil =>
    simp [processLoop, hline]
  | cons r before ih =>
    have hr : r.length = headers.length := hbefore r (List.mem_cons_self _ _)
    have ih' := ih (fun r hr => hbefore r (List.mem_cons_of_mem _ hr))
    simp only [List.cons_append, List.map_cons, hr, ne_eq, not_true_eq_false, if_false]
    simp only [processLoop, processLine_ok headers r hr]
    rw [ih']

/-- C4 on the code. The file `A,B` / `1` / `2,3`: at the record `1` the reader
returned by `csv.NewReader` reports `ErrFieldCount`, which `ProcessCSVFile`
treats as fatal, so nothing is sent, the channel is not closed and the process
exits with status 1. Had `Read` returned that record without error, the loop
would have skipped it and sent the conversion of `2,3`. In a run in which the
writer has already written the opening bracket, the output is left as `[`. -/
theorem ProcessCSVFile_mismatch_aborts :
    readAll 0 [["A".toList, "B".toList], ["1".toList], ["2".toList, "3".toList]] =
      [(["A".toList, "B".toList], none), (["1".toList], some ReadError.fieldCount),
        (["2".toList, "3".toList], none)] ∧
    ProcessCSVFile [["A".toList, "B".toList], ["1".toList], ["2".toList, "3".toList]] =
      { sent := [], skipped := [], closed := false, exitStatus := some 1 } ∧
    processLoop ["A".toList, "B".toList] [(["1".toList], none), (["2".toList, "3".toList], none)] =
      { sent := [[("A".toList, "2".toList), ("B".toList, "3".toList)]],
        skipped := [["1".toList]], closed := true, exitStatus := none } ∧
    run "in.csv".toList "comma".toList false true
        [["A".toList, "B".toList], ["1".toList], ["2".toList, "3".toList]]
        [Goroutine.writer, Goroutine.writer, Goroutine.reader, Goroutine.reader,
          Goroutine.writer, Goroutine.reader] =
      { reader := ReaderPC.reading ["A".toList, "B".toList]
          [(["1".toList], some ReadError.fieldCount), (["2".toList, "3".toList], none)],
        writer := WriterPC.receiving true,
        file := some { path := "in-compact.json".toList, content := "[".toList, closed := false },
        chanClosed := false, done := false, exitStatus := some 1 } := by
  refine ⟨by decide, by decide, by decide, by decide⟩

/-! ## The order of the keys -/

theorem char_eq_of_toNat_eq (c d : Char) (h : c.toNat = d.toNat) : c = d := by
  rw [← Char.ofNat_toNat c, ← Char.ofNat_toNat d, h]

theorem utf8Encode_append_inj (c d : Char) (s t : List Nat)
    (h : utf8Encode c ++ s = utf8Encode d ++ t) : c = d ∧ s = t := by
  have key : c.toNat = d.toNat ∧ s = t := by
    unfold utf8Encode at h
    split_ifs at h <;>
      simp only [List.cons_append, List.nil_append, List.cons.injEq] at h <;>
      first
        | (exfalso; omega)
        | (refine ⟨?_, ?_⟩
           · omega
           · simp only [h])
  exact ⟨char_eq_of_toNat_eq c d key.1, key.2⟩

theorem utf8Encode_ne_nil (c : Char) : utf8Encode c ≠ [] := by
  unfold utf8Encode
  split_ifs <;> simp

theorem utf8Bytes_injective (s t : Str) (h : utf8Bytes s = utf8Bytes t) : s = t := by
  induction s generalizing t with
  | nil =>
    cases t with
    | nil => rfl
    | cons d t =>
      simp only [utf8Bytes, List.flatMap_nil, List.flatMap_cons] at h
      have := utf8Encode_ne_nil d
      cases hd : utf8Encode d with
      | nil => exact absurd hd this
      | cons x xs => rw [hd] at h; simp at h
  | cons c s ih =>
    cases t with
    | nil =>
      simp only [utf8Bytes, List.flatMap_nil, List.flatMap_cons] at h
      have := utf8Encode_ne_nil c
      cases hc : utf8Encode c with
      | nil => exact absurd hc this
      | cons x xs => rw [hc] at h; simp at h
    | cons d t =>
      simp only [utf8Bytes, List.flatMap_cons] at h
      obtain ⟨hcd, hst⟩ := utf8Encode_append_inj c d _ _ h
      rw [hcd, ih t hst]

theorem compareBytes_eq_iff (a b : List Nat) : compareBytes a b = Ordering.eq ↔ a = b := by
  induction a generalizing b with
  | nil => cases b <;> simp [compareBytes]
  | cons x a ih =>
    cases b with
    | nil => simp [compareBytes]
    | cons y b =>
      simp only [compareBytes, List.cons.injEq]
      split_ifs with h1 h2
      · constructor
        · intro h; cases h
        · rintro ⟨h, _⟩; omega
      · constructor
        · intro h; cases h
        · rintro ⟨h, _⟩; omega
      · rw [ih b]
        constructor
        · intro h; exact ⟨by omega, h⟩
        · intro h; exact h.2

theorem compareBytes_swap (a b : List Nat) :
    compareBytes b a = (compareBytes a b).swap := by
  induction a generalizing b with
  | nil => cases b <;> simp [compareBytes, Ordering.swap]
  | cons x a ih =>
    cases b with
    | nil => simp [compareBytes, Ordering.swap]
    | cons y b =>
      simp only [compareBytes]
      split_ifs <;> first
        | rfl
        | omega
        | exact ih b

theorem compareBytes_trans (a b c : List Nat) (hab : compareBytes a b ≠ Ordering.gt)
    (hbc : compareBytes b c ≠ Ordering.gt) : compareBytes a c ≠ Ordering.gt := by
  induction a generalizing b c with
  | nil => cases c <;> simp [compareBytes]
  | cons x a ih =>
    cases b with
    | nil => simp [compareBytes] at hab
    | cons y b =>
      cases c with
      | nil => simp [compareBytes] at hbc
      | cons z c =>
        simp only [compareBytes] at hab hbc ⊢
        split_ifs at hab hbc ⊢ <;> first
          | omega
          | (exfalso; exact hab rfl)
          | (exfalso; exact hbc rfl)
          | exact ih b c hab hbc
          | (intro h; cases h)

theorem keyLe_total (a b : Str) : keyLe a b = true ∨ keyLe b a = true := by
  unfold keyLe
  rw [compareBytes_swap (utf8Bytes a) (utf8Bytes b)]
  cases compareBytes (utf8Bytes a) (utf8Bytes b) <;> decide

theorem keyLe_trans (a b c : Str) (hab : keyLe a b = true) (hbc : keyLe b c = true) :
    keyLe a c = true := by
  unfold keyLe at hab hbc ⊢
  simp only [decide_eq_true_eq] at hab hbc ⊢
  exact compareBytes_trans _ _ _ hab hbc

theorem keyLe_antisymm (a b : Str) (hab : keyLe a b = true) (hba : keyLe b a = true) :
    a = b := by
  unfold keyLe at hab hba
  simp only [decide_eq_true_eq] at hab hba
  rw [compareBytes_swap (utf8Bytes a) (utf8Bytes b)] at hba
  apply utf8Bytes_injective
  rw [← compareBytes_eq_iff]
  cases h : compareBytes (utf8Bytes a) (utf8Bytes b) with
  | eq => rfl
  | lt => rw [h] at hba; simp [Ordering.swap] at hba
  | gt => exact absurd h hab

theorem insertEntry_perm (e : Str × Str) (l : List (Str × Str)) :
    (insertEntry e l).Perm (e :: l) := by
  induction l with
  | nil => simp [insertEntry]
  | cons x xs ih =>
    by_cases h : keyLe e.1 x.1 = true
    · simp [insertEntry, h]
    · simp only [insertEntry, h, if_false]
      exact (List.Perm.cons x ih).trans (List.Perm.swap e x xs)

theorem sortEntries_perm (m : Record) : (sortEntries m).Perm m := by
  induction m with
  | nil => simp [sortEntries]
  | cons e m ih => exact (insertEntry_perm e _).trans (List.Perm.cons e ih)

theorem insertEntry_sorted (e : Str × Str) (l : List (Str × Str))
    (h : l.Pairwise (fun a b => keyLe a.1 b.1 = true)) :
    (insertEntry e l).Pairwise (fun a b => keyLe a.1 b.1 = true) := by
  induction l with
  | nil => simp [insertEntry]
  | cons x xs ih =>
    obtain ⟨hx, hxs⟩ := List.pairwise_cons.mp h
    by_cases hle : keyLe e.1 x.1 = true
    · simp only [insertEntry, hle, if_true]
      refine List.pairwise_cons.mpr ⟨?_, h⟩
      intro y hy
      rcases List.mem_cons.mp hy with rfl | hy
      · exact hle
      · exact keyLe_trans _ _ _ hle (hx y hy)
    · simp only [insertEntry, hle, if_false]
      refine List.pairwise_cons.mpr ⟨?_, ih hxs⟩
      intro y hy
      rcases List.mem_cons.mp ((insertEntry_perm e xs).mem_iff.mp hy) with rfl | hy
      · exact (keyLe_total y.1 x.1).resolve_left hle
      · exact hx y hy

theorem sortEntries_sorted (m : Record) :
    (sortEntries m).Pairwise (fun a b => keyLe a.1 b.1 = true) := by
  induction m with
  | nil => simp [sortEntries]
  | cons e m ih => exact insertEntry_sorted e _ ih

theorem sortEntries_strict (m : Record) (hnd : (mapKeys m).Nodup) :
    (sortEntries m).Pairwise (fun a b => keyLe a.1 b.1 = true ∧ a.1 ≠ b.1) := by
  have hperm : ((sortEntries m).map Prod.fst).Perm (mapKeys m) := (sortEntries_perm m).map _
  have hnd' : ((sortEntries m).map Prod.fst).Nodup := hperm.nodup_iff.mpr hnd
  have hne : (sortEntries m).Pairwise (fun a b => a.1 ≠ b.1) :=
    List.pairwise_map.mp hnd'
  exact (sortEntries_sorted m).and hne

theorem sortEntries_congr (m m' : Record) (hperm : m'.Perm m) (hnd : (mapKeys m).Nodup) :
    sortEntries m' = sortEntries m := by
  have hnd' : (mapKeys m').Nodup := (hperm.map Prod.fst).nodup_iff.mpr hnd
  haveI : IsAntisymm (Str × Str) (fun a b => keyLe a.1 b.1 = true ∧ a.1 ≠ b.1) :=
    ⟨fun a b hab hba => absurd (keyLe_antisymm a.1 b.1 hab.1 hba.1) hab.2⟩
  exact List.eq_of_perm_of_sorted
    (((sortEntries_perm m').trans hperm).trans (sortEntries_perm m).symm)
    (sortEntries_strict m' hnd') (sortEntries_strict m hnd)

theorem mapSet_of_not_mem (m : Record) (k v : Str) (h : k ∉ mapKeys m) :
    mapSet m k v = m ++ [(k, v)] := by
  induction m with
  | nil => rfl
  | cons p m ih =>
    obtain ⟨a, b⟩ := p
    have h1 : ¬ a = k := fun e => h (by simp [mapKeys, e])
    have h2 : k ∉ mapKeys m := fun hm => h (by
      have : k ∈ List.map Prod.fst m := hm
      simp [mapKeys, this])
    simp [mapSet, h1, ih h2]

theorem fillRecord_of_nodup (cols : List (Str × Str)) (m : Record)
    (h : (mapKeys m ++ cols.map (fun c => TrimSpace c.1)).Nodup) :
    fillRecord cols m = m ++ cols.map (fun c => (TrimSpace c.1, Trim c.2 valueCutset)) := by
  induction cols generalizing m with
  | nil => simp [fillRecord]
  | cons c cols ih =>
    obtain ⟨name, field⟩ := c
    have hnot : TrimSpace name ∉ mapKeys m := by
      intro hm
      have := List.nodup_append.mp h
      exact this.2.2 hm (by simp)
    have hnext : (mapKeys (m ++ [(TrimSpace name, Trim field valueCutset)])
        ++ cols.map (fun c => TrimSpace c.1)).Nodup := by
      simpa [mapKeys, List.append_assoc] using h
    simp only [fillRecord, mapSet_of_not_mem m _ _ hnot, ih _ hnext, List.map_cons,
      List.append_assoc, List.singleton_append]

/-- C10. Both serializers returned by `getJSONFunc` write the entries of a row
object in the order of `sortEntries`: a rearrangement of the entries in which the
keys ascend in the byte-wise order of their UTF-8 encodings (strictly, the keys
of a map being pairwise distinct). The text therefore does not depend on the
order in which the entries were inserted: the columns of a header with
pairwise distinct trimmed names, taken in any order together with their
fields, serialize to the same text in both modes. The header `B,A` with the row
`1,2` is written in compact mode as the object with `A` first. -/
theorem serializers_sort_keys (m : Record) :
    ((getJSONFunc false).1 m =
        "\x7b".toList ++ List.intercalate ",".toList ((sortEntries m).map encodeEntry)
          ++ "\x7d".toList ∧
      (getJSONFunc true).1 m = "   ".toList ++
        (if sortEntries m = [] then "\x7b\x7d".toList
         else "\x7b\n      ".toList
          ++ List.intercalate ",\n      ".toList ((sortEntries m).map indentEntry)
          ++ "\n   \x7d".toList)) ∧
    (sortEntries m).Perm m ∧
    ((sortEntries m).map Prod.fst).Pairwise (fun a b => keyLe a b = true) ∧
    ((mapKeys m).Nodup → ((sortEntries m).map Prod.fst).Pairwise
      (fun a b => compareBytes (utf8Bytes a) (utf8Bytes b) = Ordering.lt)) ∧
    (∀ (m' : Record) (pretty : Bool), (mapKeys m).Nodup → m'.Perm m →
      (getJSONFunc pretty).1 m' = (getJSONFunc pretty).1 m) ∧
    (∀ (cols cols' : List (Str × Str)) (pretty : Bool),
      (cols.map (fun c => TrimSpace c.1)).Nodup → cols'.Perm cols →
      (getJSONFunc pretty).1 (fillRecord cols' []) = (getJSONFunc pretty).1 (fillRecord cols [])) ∧
    (processLine ["B".toList, "A".toList] ["1".toList, "2".toList] =
        Except.ok [("B".toList, "1".toList), ("A".toList, "2".toList)] ∧
      (getJSONFunc false).1 [("B".toList, "1".toList), ("A".toList, "2".toList)] =
        "\x7b\"A\":\"2\",\"B\":\"1\"\x7d".toList) := by
  have hcongr : ∀ (m m' : Record) (pretty : Bool), (mapKeys m).Nodup → m'.Perm m →
      (getJSONFunc pretty).1 m' = (getJSONFunc pretty).1 m := by
    intro m m' pretty hnd hperm
    have hs := sortEntries_congr m m' hperm hnd
    cases pretty
    · simp [getJSONFunc, Marshal, hs]
    · simp [getJSONFunc, MarshalIndent, hs]
  refine ⟨⟨?_, ?_⟩, sortEntries_perm m, ?_, ?_, ?_, ?_, ?_⟩
  · simp [getJSONFunc, Marshal, encodeObject]
  · cases h : sortEntries m with
    | nil => simp [getJSONFunc, MarshalIndent, indentObject, h]
    | cons e es =>
      simp [getJSONFunc, MarshalIndent, indentObject, h, appendNewline, List.replicate]
  · exact List.pairwise_map.mpr (sortEntries_sorted m)
  · intro hnd
    refine List.pairwise_map.mpr ((sortEntries_strict m hnd).imp ?_)
    intro a b hab
    have hle : compareBytes (utf8Bytes a.1) (utf8Bytes b.1) ≠ Ordering.gt := by
      simpa [keyLe] using hab.1
    have hne : compareBytes (utf8Bytes a.1) (utf8Bytes b.1) ≠ Ordering.eq := by
      intro he
      exact hab.2 (utf8Bytes_injective _ _ ((compareBytes_eq_iff _ _).mp he))
    cases h : compareBytes (utf8Bytes a.1) (utf8Bytes b.1) with
    | lt => rfl
    | eq => exact absurd h hne
    | gt => exact absurd h hle
  · intro m' pretty hnd hperm
    exact hcongr m m' pretty hnd hperm
  · intro cols cols' pretty hnd hperm
    have hnd' : (cols'.map (fun c => TrimSpace c.1)).Nodup :=
      (hperm.map _).nodup_iff.mpr hnd
    rw [fillRecord_of_nodup cols [] (by simpa [mapKeys] using hnd),
      fillRecord_of_nodup cols' [] (by simpa [mapKeys] using hnd')]
    apply hcongr
    · simpa [mapKeys, List.map_map, Function.comp_def] using hnd
    · simpa using hperm.map _
  · exact ⟨rfl, rfl⟩

/-! ## Scanning the JSON text -/

theorem scanEnd_append (st : ScanState) (a b : Str) :
    scanEnd st (a ++ b) = scanEnd (scanEnd st a) b := by
  simp [scanEnd, List.foldl_append]

theorem scanFilter_append (p : Char → Bool) (q : Bool) (st : ScanState) (a b : Str) :
    scanFilter p q st (a ++ b) = scanFilter p q st a ++ scanFilter p q (scanEnd st a) b := by
  induction a generalizing st with
  | nil => simp [scanFilter, scanEnd]
  | cons c a ih =>
    simp only [List.cons_append, scanFilter, scanEnd, List.foldl_cons]
    split_ifs <;> simp [ih, scanEnd]

theorem hexDigit_plain (n : Nat) (h : n < 16) :
    hexDigit n ≠ '"' ∧ hexDigit n ≠ '\\' ∧ 0x20 ≤ (hexDigit n).toNat ∧ (hexDigit n).toNat < 0x80 := by
  have : ∀ k : Fin 16, hexDigit k.val ≠ '"' ∧ hexDigit k.val ≠ '\\' ∧
      0x20 ≤ (hexDigit k.val).toNat ∧ (hexDigit k.val).toNat < 0x80 := by decide
  exact this ⟨n, h⟩

theorem htmlSafe_plain (c : Char) (h : htmlSafe c = true) :
    c ≠ '"' ∧ c ≠ '\\' ∧ 0x20 ≤ c.toNat := by
  simp only [htmlSafe, Bool.and_eq_true, decide_eq_true_eq, bne_iff_ne, ne_eq] at h
  obtain ⟨⟨⟨⟨⟨⟨h20, _⟩, hq⟩, hb⟩, _⟩, _⟩, _⟩ := h
  exact ⟨hq, hb, h20⟩

theorem not_ascii_plain (c : Char) (h : ¬ c.toNat < 0x80) : c ≠ '"' ∧ c ≠ '\\' := by
  constructor <;> (intro e; subst e; exact h (by decide))

/-- Inside a string literal, what `appendString` writes for one code point
leaves the scan inside the literal. -/
theorem scanEnd_escapeRune (c : Char) :
    scanEnd ScanState.inString (escapeRune c) = ScanState.inString := by
  have h16 : c.toNat % 16 < 16 := Nat.mod_lt _ (by decide)
  unfold escapeRune
  split_ifs with h1 h2 h3 h4 h5 h6 h7 h8 h9
  · obtain ⟨ha, hb, _⟩ := htmlSafe_plain c h2
    simp [scanEnd, scanStep, ha, hb]
  · simp [scanEnd, scanStep]
  · simp [scanEnd, scanStep]
  · simp [scanEnd, scanStep]
  · simp [scanEnd, scanStep]
  · simp [scanEnd, scanStep]
  · simp [scanEnd, scanStep]
  · have hd : c.toNat / 16 < 16 := by omega
    obtain ⟨ha, hb, _⟩ := hexDigit_plain _ hd
    obtain ⟨hc, hd', _⟩ := hexDigit_plain _ h16
    simp [scanEnd, scanStep, ha, hb, hc, hd']
  · obtain ⟨hc, hd', _⟩ := hexDigit_plain _ h16
    simp [scanEnd, scanStep, hc, hd']
  · obtain ⟨ha, hb⟩ := not_ascii_plain c h1
    simp [scanEnd, scanStep, ha, hb]

theorem scanFilter_escapeRune (p : Char → Bool) (q : Bool) (c : Char) :
    scanFilter p q ScanState.inString (escapeRune c) = (escapeRune c).filter (fun _ => q) := by
  have h16 : c.toNat % 16 < 16 := Nat.mod_lt _ (by decide)
  unfold escapeRune
  split_ifs with h1 h2 h3 h4 h5 h6 h7 h8 h9
  · obtain ⟨ha, hb, _⟩ := htmlSafe_plain c h2
    cases q <;> simp [scanFilter, scanStep, ha, hb]
  · cases q <;> simp [scanFilter, scanStep]
  · cases q <;> simp [scanFilter, scanStep]
  · cases q <;> simp [scanFilter, scanStep]
  · cases q <;> simp [scanFilter, scanStep]
  · cases q <;> simp [scanFilter, scanStep]
  · cases q <;> simp [scanFilter, scanStep]
  · have hd : c.toNat / 16 < 16 := by omega
    obtain ⟨ha, hb, _⟩ := hexDigit_plain _ hd
    obtain ⟨hc, hd', _⟩ := hexDigit_plain _ h16
    cases q <;> simp [scanFilter, scanStep, ha, hb, hc, hd']
  · obtain ⟨hc, hd', _⟩ := hexDigit_plain _ h16
    cases q <;> simp [scanFilter, scanStep, hc, hd']
  · obtain ⟨ha, hb⟩ := not_ascii_plain c h1
    cases q <;> simp [scanFilter, scanStep, ha, hb]

theorem filter_const (q : Bool) (l : Str) :
    l.filter (fun _ => q) = if q then l else [] := by
  cases q <;> simp

theorem scan_escaped (p : Char → Bool) (q : Bool) (s : Str) :
    scanEnd ScanState.inString (s.flatMap escapeRune) = ScanState.inString ∧
    scanFilter p q ScanState.inString (s.flatMap escapeRune)
      = if q then s.flatMap escapeRune else [] := by
  induction s with
  | nil => cases q <;> simp [scanEnd, scanFilter]
  | cons c s ih =>
    simp only [List.flatMap_cons]
    rw [scanEnd_append, scanFilter_append, scanEnd_escapeRune, scanFilter_escapeRune, ih.1, ih.2,
      filter_const]
    cases q <;> simp

/-- A string literal written by `appendString` is read as one literal: the scan
is outside before and after it, and every code point of it is inside. -/
theorem scan_appendString (p : Char → Bool) (q : Bool) (s : Str) :
    scanEnd ScanState.outside (appendString s) = ScanState.outside ∧
    scanFilter p q ScanState.outside (appendString s) = if q then appendString s else [] := by
  obtain ⟨h1, h2⟩ := scan_escaped p q s
  constructor
  · simp only [appendString, scanEnd, List.foldl_cons, List.foldl_append, List.foldl_nil, scanStep,
      if_true]
    have : List.foldl scanStep ScanState.inString (s.flatMap escapeRune) = ScanState.inString := h1
    rw [this]
    simp
  · simp only [appendString, scanFilter, scanStep, if_true]
    rw [scanFilter_append, h1, h2]
    cases q <;> simp [scanFilter]

theorem scanFilter_balanced_append (p : Char → Bool) (q : Bool) (a b : Str)
    (ha : scanEnd ScanState.outside a = ScanState.outside) :
    scanFilter p q ScanState.outside (a ++ b) =
        scanFilter p q ScanState.outside a ++ scanFilter p q ScanState.outside b ∧
    scanEnd ScanState.outside (a ++ b) = scanEnd ScanState.outside b := by
  rw [scanFilter_append, scanEnd_append, ha]
  exact ⟨rfl, rfl⟩

theorem scan_flatten_sep (p : Char → Bool) (q : Bool) (sep : Str) (xs : List Str)
    (hsep : scanEnd ScanState.outside sep = ScanState.outside)
    (hxs : ∀ x ∈ xs, scanEnd ScanState.outside x = ScanState.outside) :
    scanFilter p q ScanState.outside (xs.map (fun y => sep ++ y)).flatten =
        (xs.map (fun y => scanFilter p q ScanState.outside sep
          ++ scanFilter p q ScanState.outside y)).flatten ∧
    scanEnd ScanState.outside (xs.map (fun y => sep ++ y)).flatten = ScanState.outside := by
  induction xs with
  | nil => simp [scanFilter, scanEnd]
  | cons x xs ih =>
    have hx : scanEnd ScanState.outside x = ScanState.outside := hxs x (List.mem_cons_self _ _)
    have ih' := ih (fun y hy => hxs y (List.mem_cons_of_mem _ hy))
    have hsx : scanEnd ScanState.outside (sep ++ x) = ScanState.outside := by
      rw [(scanFilter_balanced_append p q sep x hsep).2, hx]
    simp only [List.map_cons, List.flatten_cons]
    rw [(scanFilter_balanced_append p q (sep ++ x) _ hsx).1,
      (scanFilter_balanced_append p q (sep ++ x) _ hsx).2,
      (scanFilter_balanced_append p q sep x hsep).1, ih'.1, ih'.2]
    exact ⟨rfl, rfl⟩

/-- Scanning pieces joined by a separator, when the scan is outside every string
literal at the end of each piece and of the separator: the filter acts piece by
piece. -/
theorem scan_intercalate (p : Char → Bool) (q : Bool) (sep : Str) (xs : List Str)
    (hsep : scanEnd ScanState.outside sep = ScanState.outside)
    (hxs : ∀ x ∈ xs, scanEnd ScanState.outside x = ScanState.outside) :
    scanFilter p q ScanState.outside (List.intercalate sep xs) =
        List.intercalate (scanFilter p q ScanState.outside sep)
          (xs.map (scanFilter p q ScanState.outside)) ∧
    scanEnd ScanState.outside (List.intercalate sep xs) = ScanState.outside := by
  cases xs with
  | nil => simp [List.intercalate, scanFilter, scanEnd]
  | cons x xs =>
    have hx : scanEnd ScanState.outside x = ScanState.outside := hxs x (List.mem_cons_self _ _)
    obtain ⟨h1, h2⟩ := scan_flatten_sep p q sep xs hsep
      (fun y hy => hxs y (List.mem_cons_of_mem _ hy))
    rw [intercalate_cons_eq, List.map_cons, intercalate_cons_eq,
      (scanFilter_balanced_append p q x _ hx).1, (scanFilter_balanced_append p q x _ hx).2,
      h1, h2, List.map_map]
    exact ⟨rfl, rfl⟩

theorem scan_encodeEntry (p : Char → Bool) (q : Bool) (e : Str × Str) :
    scanFilter p q ScanState.outside (encodeEntry e) =
        (if q then appendString e.1 else []) ++ (if p ':' then [':'] else [])
          ++ (if q then appendString e.2 else []) ∧
    scanEnd ScanState.outside (encodeEntry e) = ScanState.outside := by
  obtain ⟨hk1, hk2⟩ := scan_appendString p q e.1
  obtain ⟨hv1, hv2⟩ := scan_appendString p q e.2
  have hcolon : scanEnd ScanState.outside (':' :: appendString e.2) = ScanState.outside := by
    have : scanEnd ScanState.outside (':' :: appendString e.2)
        = scanEnd ScanState.outside (appendString e.2) := by
      simp [scanEnd, scanStep]
    rw [this, hv1]
  have hf : scanFilter p q ScanState.outside (':' :: appendString e.2) =
      (if p ':' then [':'] else []) ++ (if q then appendString e.2 else []) := by
    rw [← hv2]
    by_cases hp : p ':' = true <;> simp [scanFilter, scanStep, hp]
  unfold encodeEntry
  rw [(scanFilter_balanced_append p q _ _ hk1).1, (scanFilter_balanced_append p q _ _ hk1).2,
    hk2, hf, hcolon]
  simp [List.append_assoc]

theorem scan_indentEntry (p : Char → Bool) (q : Bool) (e : Str × Str) :
    scanFilter p q ScanState.outside (indentEntry e) =
        (if q then appendString e.1 else []) ++ (if p ':' then [':'] else [])
          ++ (if p ' ' then [' '] else []) ++ (if q then appendString e.2 else []) ∧
    scanEnd ScanState.outside (indentEntry e) = ScanState.outside := by
  obtain ⟨hk1, hk2⟩ := scan_appendString p q e.1
  obtain ⟨hv1, hv2⟩ := scan_appendString p q e.2
  have hcolon : scanEnd ScanState.outside (':' :: ' ' :: appendString e.2)
      = ScanState.outside := by
    have : scanEnd ScanState.outside (':' :: ' ' :: appendString e.2)
        = scanEnd ScanState.outside (appendString e.2) := by
      simp [scanEnd, scanStep]
    rw [this, hv1]
  have hf : scanFilter p q ScanState.outside (':' :: ' ' :: appendString e.2) =
      (if p ':' then [':'] else []) ++ (if p ' ' then [' '] else [])
        ++ (if q then appendString e.2 else []) := by
    rw [← hv2]
    by_cases hp : p ':' = true <;> by_cases hs : p ' ' = true <;>
      simp [scanFilter, scanStep, hp, hs]
  unfold indentEntry
  rw [(scanFilter_balanced_append p q _ _ hk1).1, (scanFilter_balanced_append p q _ _ hk1).2,
    hk2, hf, hcolon]
  simp [List.append_assoc]

theorem scan_cons_plain (p : Char → Bool) (q : Bool) (c : Char) (rest : Str) (hc : c ≠ '"') :
    scanFilter p q ScanState.outside (c :: rest) =
        (if p c then [c] else []) ++ scanFilter p q ScanState.outside rest ∧
    scanEnd ScanState.outside (c :: rest) = scanEnd ScanState.outside rest := by
  by_cases hp : p c = true <;> simp [scanFilter, scanEnd, scanStep, hc, hp]

/-- The scan of a compact object: the braces, the commas and the colons are
outside the string literals, everything else is inside one. -/
theorem scan_encodeObject (p : Char → Bool) (q : Bool) (es : List (Str × Str)) :
    scanFilter p q ScanState.outside (encodeObject es) =
        (if p '{' then ['{'] else [])
          ++ List.intercalate (if p ',' then [','] else [])
              (es.map (fun e => scanFilter p q ScanState.outside (encodeEntry e)))
          ++ (if p '}' then ['}'] else []) ∧
    scanEnd ScanState.outside (encodeObject es) = ScanState.outside := by
  have hsep : scanEnd ScanState.outside [','] = ScanState.outside := rfl
  have hxs : ∀ x ∈ es.map encodeEntry, scanEnd ScanState.outside x = ScanState.outside := by
    intro x hx
    obtain ⟨e, _, rfl⟩ := List.mem_map.mp hx
    exact (scan_encodeEntry p q e).2
  obtain ⟨h1, h2⟩ := scan_intercalate p q [','] (es.map encodeEntry) hsep hxs
  have hcomma : scanFilter p q ScanState.outside [','] = if p ',' then [','] else [] := by
    by_cases hp : p ',' = true <;> simp [scanFilter, hp]
  have hclose : scanFilter p q ScanState.outside ['}'] = if p '}' then ['}'] else [] := by
    by_cases hp : p '}' = true <;> simp [scanFilter, hp]
  unfold encodeObject
  rw [(scan_cons_plain p q '{' _ (by decide)).1, (scan_cons_plain p q '{' _ (by decide)).2,
    (scanFilter_balanced_append p q _ _ h2).1, (scanFilter_balanced_append p q _ _ h2).2,
    h1, hcomma, hclose, List.map_map]
  exact ⟨by simp [List.append_assoc, Function.comp_def], rfl⟩

theorem strip_encodeEntry (e : Str × Str) :
    scanFilter (fun c => !isSpace c) true ScanState.outside (encodeEntry e) = encodeEntry e := by
  rw [(scan_encodeEntry _ _ e).1]
  have : isSpace ':' = false := by decide
  simp [encodeEntry, this]

theorem strip_indentEntry (e : Str × Str) :
    scanFilter (fun c => !isSpace c) true ScanState.outside (indentEntry e) = encodeEntry e := by
  rw [(scan_indentEntry _ _ e).1]
  have h1 : isSpace ':' = false := by decide
  have h2 : isSpace ' ' = true := by decide
  simp [encodeEntry, h1, h2]

theorem strip_encodeObject (es : List (Str × Str)) :
    scanFilter (fun c => !isSpace c) true ScanState.outside (encodeObject es)
      = encodeObject es := by
  rw [(scan_encodeObject _ _ es).1]
  have h1 : isSpace '{' = false := by decide
  have h2 : isSpace '}' = false := by decide
  have h3 : isSpace ',' = false := by decide
  have hmap : es.map (fun e => scanFilter (fun c => !isSpace c) true ScanState.outside
      (encodeEntry e)) = es.map encodeEntry :=
    List.map_congr_left (fun e _ => strip_encodeEntry e)
  simp [encodeObject, h1, h2, h3, hmap]

/-- Deleting the whitespace outside the string literals of one element of the
pretty output gives the corresponding element of the compact output. -/
theorem strip_pretty_element (es : List (Str × Str)) :
    scanFilter (fun c => !isSpace c) true ScanState.outside
        ("   ".toList ++ indentObject es "   ".toList "   ".toList) = encodeObject es ∧
    scanEnd ScanState.outside ("   ".toList ++ indentObject es "   ".toList "   ".toList)
      = ScanState.outside := by
  cases es with
  | nil => exact ⟨by decide, by decide⟩
  | cons e es =>
    have hsep : scanEnd ScanState.outside (',' :: appendNewline "   ".toList "   ".toList 1)
        = ScanState.outside := by decide
    have hxs : ∀ x ∈ (e :: es).map indentEntry,
        scanEnd ScanState.outside x = ScanState.outside := by
      intro x hx
      obtain ⟨e', _, rfl⟩ := List.mem_map.mp hx
      exact (scan_indentEntry (fun c => !isSpace c) true e').2
    obtain ⟨h1, h2⟩ := scan_intercalate (fun c => !isSpace c) true _ _ hsep hxs
    have hlead : scanEnd ScanState.outside
        ("   ".toList ++ '{' :: appendNewline "   ".toList "   ".toList 1)
          = ScanState.outside := by decide
    have hleadS : scanFilter (fun c => !isSpace c) true ScanState.outside
        ("   ".toList ++ '{' :: appendNewline "   ".toList "   ".toList 1) = ['{'] := by decide
    have htail : scanFilter (fun c => !isSpace c) true ScanState.outside
        (appendNewline "   ".toList "   ".toList 0 ++ ['}']) = ['}'] := by decide
    have htailE : scanEnd ScanState.outside
        (appendNewline "   ".toList "   ".toList 0 ++ ['}']) = ScanState.outside := by decide
    have hsepS : scanFilter (fun c => !isSpace c) true ScanState.outside
        (',' :: appendNewline "   ".toList "   ".toList 1) = [','] := by decide
    have hmap : ((e :: es).map indentEntry).map
        (scanFilter (fun c => !isSpace c) true ScanState.outside) = (e :: es).map encodeEntry := by
      rw [List.map_map]
      exact List.map_congr_left (fun e _ => strip_indentEntry e)
    have hshape : "   ".toList ++ indentObject (e :: es) "   ".toList "   ".toList =
        ("   ".toList ++ '{' :: appendNewline "   ".toList "   ".toList 1)
          ++ (List.intercalate (',' :: appendNewline "   ".toList "   ".toList 1)
                ((e :: es).map indentEntry)
              ++ (appendNewline "   ".toList "   ".toList 0 ++ ['}'])) := by
      simp [indentObject, List.append_assoc]
    rw [hshape, (scanFilter_balanced_append (fun c => !isSpace c) true _ _ hlead).1,
      (scanFilter_balanced_append (fun c => !isSpace c) true _ _ hlead).2,
      (scanFilter_balanced_append (fun c => !isSpace c) true _ _ h2).1,
      (scanFilter_balanced_append (fun c => !isSpace c) true _ _ h2).2,
      hleadS, h1, hsepS, hmap, htail, htailE]
    exact ⟨by simp [encodeObject], rfl⟩

theorem mem_intercalate (sep : Str) (xs : List Str) (c : Char)
    (h : c ∈ List.intercalate sep xs) : c ∈ sep ∨ ∃ x ∈ xs, c ∈ x := by
  cases xs with
  | nil => simp [List.intercalate] at h
  | cons x xs =>
    rw [intercalate_cons_eq] at h
    rcases List.mem_append.mp h with h | h
    · exact Or.inr ⟨x, List.mem_cons_self _ _, h⟩
    · obtain ⟨l, hl, hc⟩ := List.mem_flatten.mp h
      obtain ⟨y, hy, rfl⟩ := List.mem_map.mp hl
      rcases List.mem_append.mp hc with hc | hc
      · exact Or.inl hc
      · exact Or.inr ⟨y, List.mem_cons_of_mem _ hy, hc⟩

/-- Every code point `appendString` writes for a code point is printable: no
control character, and neither U+2028 nor U+2029. -/
theorem mem_escapeRune (c x : Char) (hx : x ∈ escapeRune c) :
    0x20 ≤ x.toNat ∧ x.toNat ≠ 0x2028 ∧ x.toNat ≠ 0x2029 := by
  have h16 : c.toNat % 16 < 16 := Nat.mod_lt _ (by decide)
  unfold escapeRune at hx
  split_ifs at hx with h1 h2 h3 h4 h5 h6 h7 h8 h9
  · obtain ⟨_, _, h20⟩ := htmlSafe_plain c h2
    simp only [List.mem_singleton] at hx
    subst hx
    exact ⟨h20, by omega, by omega⟩
  · simp only [List.mem_cons, List.mem_singleton, List.not_mem_nil, or_false] at hx
    rcases hx with rfl | rfl
    · decide
    · rcases h3 with rfl | rfl <;> decide
  · simp only [List.mem_cons, List.mem_singleton, List.not_mem_nil, or_false] at hx
    rcases hx with rfl | rfl <;> decide
  · simp only [List.mem_cons, List.mem_singleton, List.not_mem_nil, or_false] at hx
    rcases hx with rfl | rfl <;> decide
  · simp only [List.mem_cons, List.mem_singleton, List.not_mem_nil, or_false] at hx
    rcases hx with rfl | rfl <;> decide
  · simp only [List.mem_cons, List.mem_singleton, List.not_mem_nil, or_false] at hx
    rcases hx with rfl | rfl <;> decide
  · simp only [List.mem_cons, List.mem_singleton, List.not_mem_nil, or_false] at hx
    rcases hx with rfl | rfl <;> decide
  · have hd : c.toNat / 16 < 16 := by omega
    obtain ⟨_, _, ha, ha'⟩ := hexDigit_plain _ hd
    obtain ⟨_, _, hb, hb'⟩ := hexDigit_plain _ h16
    simp only [List.mem_cons, List.mem_singleton, List.not_mem_nil, or_false] at hx
    rcases hx with rfl | rfl | rfl | rfl | rfl | rfl
    · decide
    · decide
    · decide
    · decide
    · exact ⟨ha, by omega, by omega⟩
    · exact ⟨hb, by omega, by omega⟩
  · obtain ⟨_, _, hb, hb'⟩ := hexDigit_plain _ h16
    simp only [List.mem_cons, List.mem_singleton, List.not_mem_nil, or_false] at hx
    rcases hx with rfl | rfl | rfl | rfl | rfl | rfl
    · decide
    · decide
    · decide
    · decide
    · decide
    · exact ⟨hb, by omega, by omega⟩
  · simp only [List.mem_singleton] at hx
    subst hx
    exact ⟨by omega, fun e => h9 (Or.inl e), fun e => h9 (Or.inr e)⟩

theorem mem_appendString (s : Str) (x : Char) (hx : x ∈ appendString s) :
    0x20 ≤ x.toNat ∧ x.toNat ≠ 0x2028 ∧ x.toNat ≠ 0x2029 := by
  unfold appendString at hx
  rcases List.mem_cons.mp hx with rfl | hx
  · decide
  · rcases List.mem_append.mp hx with hx | hx
    · obtain ⟨c, _, hc⟩ := List.mem_flatMap.mp hx
      exact mem_escapeRune c x hc
    · simp only [List.mem_singleton] at hx
      subst hx
      decide

theorem mem_encodeObject (es : List (Str × Str)) (x : Char) (hx : x ∈ encodeObject es) :
    0x20 ≤ x.toNat ∧ x.toNat ≠ 0x2028 ∧ x.toNat ≠ 0x2029 := by
  unfold encodeObject at hx
  rcases List.mem_cons.mp hx with rfl | hx
  · decide
  · rcases List.mem_append.mp hx with hx | hx
    · rcases mem_intercalate _ _ _ hx with hx | ⟨l, hl, hx⟩
      · simp only [List.mem_singleton] at hx
        subst hx
        decide
      · obtain ⟨e, _, rfl⟩ := List.mem_map.mp hl
        unfold encodeEntry at hx
        rcases List.mem_append.mp hx with hx | hx
        · exact mem_appendString _ _ hx
        · rcases List.mem_cons.mp hx with rfl | hx
          · decide
          · exact mem_appendString _ _ hx
    · simp only [List.mem_singleton] at hx
      subst hx
      decide

theorem not_lineBreak_of_printable (c : Char) (h : 0x20 ≤ c.toNat) : isLineBreak c = false := by
  unfold isLineBreak
  simp only [Bool.or_eq_false_iff, beq_eq_false_iff_ne, ne_eq]
  constructor
  · rintro rfl
    exact absurd h (by decide)
  · rintro rfl
    exact absurd h (by decide)

theorem compact_content (csvPath : Str) (rows : List Record) :
    (WriteJSONFile csvPath rows false).content =
      '[' :: (List.intercalate [','] ((rows.map sortEntries).map encodeObject) ++ [']']) := by
  rw [WriteJSONFile_content]
  simp [getJSONFunc, List.map_map, Function.comp_def, Marshal]

theorem pretty_content (csvPath : Str) (rows : List Record) :
    (WriteJSONFile csvPath rows true).content =
      '[' :: '\n' :: (List.intercalate [',', '\n']
        ((rows.map sortEntries).map
          (fun es => "   ".toList ++ indentObject es "   ".toList "   ".toList))
        ++ ['\n', ']']) := by
  rw [WriteJSONFile_content]
  simp [getJSONFunc, List.map_map, Function.comp_def, MarshalIndent]

theorem scan_compact_array (p : Char → Bool) (q : Bool) (objs : List (List (Str × Str))) :
    scanFilter p q ScanState.outside
        ('[' :: (List.intercalate [','] (objs.map encodeObject) ++ [']'])) =
      (if p '[' then ['['] else [])
        ++ List.intercalate (if p ',' then [','] else [])
            (objs.map (fun es => scanFilter p q ScanState.outside (encodeObject es)))
        ++ (if p ']' then [']'] else []) ∧
    scanEnd ScanState.outside
        ('[' :: (List.intercalate [','] (objs.map encodeObject) ++ [']'])) = ScanState.outside := by
  have hsep : scanEnd ScanState.outside [','] = ScanState.outside := rfl
  have hxs : ∀ x ∈ objs.map encodeObject, scanEnd ScanState.outside x = ScanState.outside := by
    intro x hx
    obtain ⟨es, _, rfl⟩ := List.mem_map.mp hx
    exact (scan_encodeObject p q es).2
  obtain ⟨h1, h2⟩ := scan_intercalate p q [','] (objs.map encodeObject) hsep hxs
  have hcomma : scanFilter p q ScanState.outside [','] = if p ',' then [','] else [] := by
    by_cases hp : p ',' = true <;> simp [scanFilter, hp]
  have hclose : scanFilter p q ScanState.outside [']'] = if p ']' then [']'] else [] := by
    by_cases hp : p ']' = true <;> simp [scanFilter, hp]
  rw [(scan_cons_plain p q '[' _ (by decide)).1, (scan_cons_plain p q '[' _ (by decide)).2,
    (scanFilter_balanced_append p q _ _ h2).1, (scanFilter_balanced_append p q _ _ h2).2,
    h1, hcomma, hclose, List.map_map]
  exact ⟨by simp [List.append_assoc, Function.comp_def], rfl⟩

/-- C7. For every finite sequence of row objects, whatever their keys and
values contain, the text written in compact mode is on a single line: none of
its code points is a line feed or a carriage return (indeed none is a control
character or U+2028 or U+2029, all of which `encoding/json` escapes), every
string literal in it is closed, and every code point outside the string
literals is one of the brackets, braces, colon and comma, so none is whitespace.
A row object whose key has an interior blank and whose value has an interior tab
and line feed is written with both escaped. -/
theorem compact_single_line (csvPath : Str) (rows : List Record) :
    (∀ c ∈ (WriteJSONFile csvPath rows false).content,
      isLineBreak c = false ∧ 0x20 ≤ c.toNat ∧ c.toNat ≠ 0x2028 ∧ c.toNat ≠ 0x2029) ∧
    scanEnd ScanState.outside (WriteJSONFile csvPath rows false).content = ScanState.outside ∧
    (∀ c ∈ outsideLiterals (WriteJSONFile csvPath rows false).content,
      c ∈ ['[', ']', '{', '}', ':', ','] ∧ isSpace c = false) ∧
    (WriteJSONFile csvPath [[("a b".toList, "x\ty\nz".toList)]] false).content =
      "[\x7b\"a b\":\"x\\ty\\nz\"\x7d]".toList := by
  refine ⟨?_, ?_, ?_, rfl⟩
  · intro c hc
    rw [compact_content] at hc
    have hp : 0x20 ≤ c.toNat ∧ c.toNat ≠ 0x2028 ∧ c.toNat ≠ 0x2029 := by
      rcases List.mem_cons.mp hc with rfl | hc
      · decide
      · rcases List.mem_append.mp hc with hc | hc
        · rcases mem_intercalate _ _ _ hc with hc | ⟨l, hl, hc⟩
          · simp only [List.mem_singleton] at hc
            subst hc
            decide
          · obtain ⟨es, _, rfl⟩ := List.mem_map.mp hl
            exact mem_encodeObject es c hc
        · simp only [List.mem_singleton] at hc
          subst hc
          decide
    exact ⟨not_lineBreak_of_printable c hp.1, hp⟩
  · rw [compact_content]
    exact (scan_compact_array (fun _ => true) false _).2
  · intro c hc
    have hstruct : c ∈ ['[', ']', '{', '}', ':', ','] := by
      unfold outsideLiterals at hc
      rw [compact_content, (scan_compact_array (fun _ => true) false _).1] at hc
      simp only [if_true, List.mem_append, List.mem_singleton] at hc
      rcases hc with (rfl | hc) | rfl
      · decide
      · rcases mem_intercalate _ _ _ hc with hc | ⟨l, hl, hc⟩
        · simp only [List.mem_singleton] at hc
          subst hc
          decide
        · obtain ⟨es, _, rfl⟩ := List.mem_map.mp hl
          rw [(scan_encodeObject (fun _ => true) false es).1] at hc
          simp only [if_true, List.mem_append, List.mem_singleton] at hc
          rcases hc with (rfl | hc) | rfl
          · decide
          · rcases mem_intercalate _ _ _ hc with hc | ⟨l', hl', hc⟩
            · simp only [List.mem_singleton] at hc
              subst hc
              decide
            · obtain ⟨e, _, rfl⟩ := List.mem_map.mp hl'
              rw [(scan_encodeEntry (fun _ => true) false e).1] at hc
              simp at hc
              subst hc
              decide
          · decide
      · decide
    refine ⟨hstruct, ?_⟩
    simp only [List.mem_cons, List.mem_singleton, List.not_mem_nil, or_false] at hstruct
    rcases hstruct with rfl | rfl | rfl | rfl | rfl | rfl <;> decide

/-- C8. For every finite sequence of row objects, the pretty-mode output and the
compact-mode output are two layouts of the same objects: both are the array of
the rows' entry lists (each sorted by key) in the order received, the compact
output writing each entry list with `encodeObject` and the pretty output with
`indentObject`, from the same string literals for the keys and the values; and
deleting every whitespace code point that lies outside a string literal from
the pretty output (or from one pretty element) yields exactly the compact output
(the compact element). -/
theorem pretty_compact_same_data (csvPath : Str) (rows : List Record) :
    stripWhitespace (WriteJSONFile csvPath rows true).content
      = (WriteJSONFile csvPath rows false).content ∧
    (∀ r : Record, stripWhitespace ((getJSONFunc true).1 r) = (getJSONFunc false).1 r) ∧
    (WriteJSONFile csvPath rows false).content =
      "[".toList ++ List.intercalate ",".toList ((rows.map sortEntries).map encodeObject)
        ++ "]".toList ∧
    (WriteJSONFile csvPath rows true).content =
      "[\n".toList ++ List.intercalate ",\n".toList
        ((rows.map sortEntries).map
          (fun es => "   ".toList ++ indentObject es "   ".toList "   ".toList))
        ++ "\n]".toList := by
  refine ⟨?_, ?_, ?_, ?_⟩
  · rw [compact_content, pretty_content]
    unfold stripWhitespace
    have hsep : scanEnd ScanState.outside [',', '\n'] = ScanState.outside := by decide
    have hxs : ∀ x ∈ (rows.map sortEntries).map
        (fun es => "   ".toList ++ indentObject es "   ".toList "   ".toList),
        scanEnd ScanState.outside x = ScanState.outside := by
      intro x hx
      obtain ⟨es, _, rfl⟩ := List.mem_map.mp hx
      exact (strip_pretty_element es).2
    obtain ⟨h1, h2⟩ := scan_intercalate (fun c => !isSpace c) true _ _ hsep hxs
    have hmap : ((rows.map sortEntries).map
        (fun es => "   ".toList ++ indentObject es "   ".toList "   ".toList)).map
          (scanFilter (fun c => !isSpace c) true ScanState.outside)
        = (rows.map sortEntries).map encodeObject := by
      rw [List.map_map]
      exact List.map_congr_left (fun es _ => (strip_pretty_element es).1)
    have hlead : ∀ rest : Str,
        scanFilter (fun c => !isSpace c) true ScanState.outside ('[' :: '\n' :: rest)
          = '[' :: scanFilter (fun c => !isSpace c) true ScanState.outside rest := by
      intro rest
      have h1 : isSpace '[' = false := by decide
      have h2 : isSpace '\n' = true := by decide
      simp [scanFilter, scanStep, h1, h2]
    have hsepS : scanFilter (fun c => !isSpace c) true ScanState.outside [',', '\n'] = [','] := by
      decide
    have htail : scanFilter (fun c => !isSpace c) true ScanState.outside ['\n', ']'] = [']'] := by
      decide
    rw [hlead, (scanFilter_balanced_append (fun c => !isSpace c) true _ _ h2).1, h1, hsepS, hmap,
      htail]
  · intro r
    exact (strip_pretty_element (sortEntries r)).1
  · rw [compact_content]
    rfl
  · rw [pretty_content]
    rfl

/-! ## Paths -/

theorem rdropWhile_append_name (A n : Str)
    (hn : ∀ c ∈ n, isPathSeparator c = false)
    (hA : A = [] ∨ ∃ A', A = A' ++ ['/']) :
    (A ++ n).rdropWhile (fun c => !isPathSeparator c) = A := by
  have hall : ∀ c ∈ n.reverse, (fun c => !isPathSeparator c) c = true := by
    intro c hc
    simp [hn c (List.mem_reverse.mp hc)]
  unfold List.rdropWhile
  rw [List.reverse_append, List.dropWhile_append_of_pos hall]
  rcases hA with rfl | ⟨A', rfl⟩
  · simp
  · simp [isPathSeparator]

theorem Base_append_name (A n : Str) (hne : n ≠ [])
    (hn : ∀ c ∈ n, isPathSeparator c = false)
    (hA : A = [] ∨ ∃ A', A = A' ++ ['/']) :
    Base (A ++ n) = n := by
  have hall : ∀ c ∈ n.reverse, (fun c => !isPathSeparator c) c = true := by
    intro c hc
    simp [hn c (List.mem_reverse.mp hc)]
  have hpath : A ++ n ≠ [] := by simp [hne]
  obtain ⟨x, n', hx⟩ : ∃ x n', n.reverse = x :: n' := by
    cases h : n.reverse with
    | nil => exact absurd (List.reverse_eq_nil_iff.mp h) hne
    | cons x n' => exact ⟨x, n', rfl⟩
  have hxsep : isPathSeparator x = false :=
    hn x (List.mem_reverse.mp (by rw [hx]; exact List.mem_cons_self _ _))
  have hstrip : (A ++ n).rdropWhile isPathSeparator = A ++ n := by
    unfold List.rdropWhile
    rw [List.reverse_append, hx, List.cons_append, List.dropWhile_cons_of_neg (by simp [hxsep]),
      ← List.cons_append, ← hx, ← List.reverse_append, List.reverse_reverse]
  have htake : (A ++ n).reverse.takeWhile (fun c => !isPathSeparator c) = n.reverse := by
    rw [List.reverse_append, List.takeWhile_append_of_pos hall]
    rcases hA with rfl | ⟨A', rfl⟩
    · simp
    · simp [isPathSeparator]
  unfold Base
  simp only [hpath, if_false, hstrip, htake, List.reverse_reverse, hne]

theorem path_split (v : Str) :
    ∃ pre stem, v = pre ++ stem ∧ (∀ c ∈ stem, isPathSeparator c = false) ∧
      (pre = [] ∨ ∃ A', pre = A' ++ ['/']) := by
  refine ⟨(v.reverse.dropWhile (fun c => !isPathSeparator c)).reverse,
    (v.reverse.takeWhile (fun c => !isPathSeparator c)).reverse, ?_, ?_, ?_⟩
  · rw [← List.reverse_append, List.takeWhile_append_dropWhile, List.reverse_reverse]
  · intro c hc
    have := List.mem_takeWhile_imp (List.mem_reverse.mp hc)
    simpa using this
  · cases h : v.reverse.dropWhile (fun c => !isPathSeparator c) with
    | nil => exact Or.inl rfl
    | cons x rest =>
      right
      have hx : ¬ (fun c => !isPathSeparator c) x = true := by
        have := List.dropWhile_get_zero_not (fun c => !isPathSeparator c) v.reverse
          (by rw [h]; simp)
        simpa [h] using this
      have hx' : x = '/' := by
        simpa [isPathSeparator] using hx
      exact ⟨rest.reverse, by simp [hx']⟩

theorem extScan_eq (r acc res : Str) (h : extScan r acc = res) (hres : res ≠ []) :
    ∃ u v, r = u ++ '.' :: v ∧ res = '.' :: (u.reverse ++ acc) := by
  induction r generalizing acc with
  | nil =>
    simp only [extScan] at h
    exact absurd h.symm hres
  | cons c r ih =>
    unfold extScan at h
    split_ifs at h with h1 h2
    · exact absurd h.symm hres
    · subst h2
      exact ⟨[], r, rfl, by simpa using h.symm⟩
    · obtain ⟨u, v, hr, hre⟩ := ih (c :: acc) h
      exact ⟨c :: u, v, by simp [hr], by simpa using hre⟩

/-- A path whose extension is `.csv` ends in `.csv`. -/
theorem Ext_csv (path : Str) (h : Ext path = ".csv".toList) :
    ∃ v, path = v ++ ".csv".toList := by
  obtain ⟨u, v, hr, hre⟩ := extScan_eq path.reverse [] _ h (by decide)
  have hu : u.reverse = "csv".toList := by
    have : ".csv".toList = '.' :: "csv".toList := rfl
    rw [this] at hre
    simpa using (List.cons.inj hre).2.symm
  refine ⟨v.reverse, ?_⟩
  have hp : path = (u ++ '.' :: v).reverse := by rw [← hr, List.reverse_reverse]
  rw [hp, List.reverse_append, List.reverse_cons, hu]
  simp

theorem cleanElem_nil (r : Bool) (out : List Str) : cleanElem r out [] = out := by
  simp [cleanElem]

theorem properName_iff (e : Str) :
    properName e = true ↔
      e ≠ [] ∧ e ≠ ['.'] ∧ e ≠ ['.', '.'] ∧ ∀ c ∈ e, isPathSeparator c = false := by
  simp [properName, and_assoc]

theorem cleanElem_proper (r : Bool) (out : List Str) (n : Str) (hn : properName n = true) :
    cleanElem r out n = n :: out := by
  obtain ⟨h1, h2, h3, _⟩ := (properName_iff n).mp hn
  simp [cleanElem, h1, h2, h3]

theorem cleanScan_name (r : Bool) (w rest cur : Str) (out : List Str)
    (hw : ∀ c ∈ w, isPathSeparator c = false) :
    cleanScan r (w ++ rest) cur out = cleanScan r rest (cur ++ w) out := by
  induction w generalizing cur with
  | nil => simp
  | cons c w ih =>
    have hc : isPathSeparator c = false := hw c (List.mem_cons_self _ _)
    have hw' : ∀ c ∈ w, isPathSeparator c = false := fun x hx => hw x (List.mem_cons_of_mem _ hx)
    have hstep : cleanScan r (c :: (w ++ rest)) cur out = cleanScan r (w ++ rest) (cur ++ [c]) out := by
      simp [cleanScan, hc]
    rw [List.cons_append, hstep, ih _ hw']
    simp

theorem intercalate_cons_cons (sep x y : Str) (l : List Str) :
    List.intercalate sep (x :: y :: l) = x ++ (sep ++ List.intercalate sep (y :: l)) := by
  simp [intercalate_cons_eq]

theorem intercalate_concat (sep n : Str) (es : List Str) (hes : es ≠ []) :
    List.intercalate sep (es ++ [n]) = List.intercalate sep es ++ (sep ++ n) := by
  cases es with
  | nil => exact absurd rfl hes
  | cons x xs => simp [intercalate_cons_eq]

/-- The scan of `Clean` over elements joined by separators handles them one
after the other. -/
theorem cleanScan_intercalate (r : Bool) (es : List Str) (rest : Str) (out : List Str)
    (hes : ∀ e ∈ es, ∀ c ∈ e, isPathSeparator c = false) :
    cleanScan r (List.intercalate ['/'] es ++ '/' :: rest) [] out =
      cleanScan r rest [] (es.foldl (cleanElem r) out) := by
  induction es generalizing out with
  | nil => simp [List.intercalate, cleanScan, isPathSeparator, cleanElem_nil]
  | cons e es ih =>
    have he : ∀ c ∈ e, isPathSeparator c = false := hes e (List.mem_cons_self _ _)
    have hes' : ∀ e ∈ es, ∀ c ∈ e, isPathSeparator c = false :=
      fun x hx => hes x (List.mem_cons_of_mem _ hx)
    cases es with
    | nil =>
      have : List.intercalate ['/'] [e] = e := by simp [List.intercalate]
      rw [this, cleanScan_name r e _ [] out he]
      simp [cleanScan, isPathSeparator]
    | cons y l =>
      rw [intercalate_cons_cons, List.append_assoc, cleanScan_name r e _ [] out he]
      have h2 := ih (cleanElem r out e) hes'
      simp only [List.singleton_append, List.cons_append, List.nil_append, cleanScan]
      simp only [List.foldl_cons] at h2 ⊢
      rw [← h2]
      simp [isPathSeparator]

theorem cleanStack_of_all_dotdot (out : List Str)
    (h : out.all (fun x => decide (x = ['.', '.'])) = true) : cleanStack false out = true := by
  induction out with
  | nil => rfl
  | cons e rest ih =>
    simp only [List.all_cons, Bool.and_eq_true, decide_eq_true_eq] at h
    simp [cleanStack, h.1, h.2]

theorem cleanStack_tail (r : Bool) (e : Str) (rest : List Str)
    (h : cleanStack r (e :: rest) = true) : cleanStack r rest = true := by
  unfold cleanStack at h
  split_ifs at h with he
  · simp only [Bool.and_eq_true, Bool.not_eq_true'] at h
    rw [h.1]
    exact cleanStack_of_all_dotdot rest h.2
  · simp only [Bool.and_eq_true] at h
    exact h.2

theorem cleanStack_sepFree (r : Bool) (out : List Str) (h : cleanStack r out = true) :
    ∀ e ∈ out, e ≠ [] ∧ ∀ c ∈ e, isPathSeparator c = false := by
  induction out with
  | nil => simp
  | cons e rest ih =>
    intro x hx
    rcases List.mem_cons.mp hx with rfl | hx
    · unfold cleanStack at h
      split_ifs at h with he
      · subst he
        exact ⟨by decide, by decide⟩
      · simp only [Bool.and_eq_true] at h
        obtain ⟨h1, _, _, h4⟩ := (properName_iff x).mp h.1
        exact ⟨h1, h4⟩
    · exact ih (cleanStack_tail r e rest h) x hx

/-- What `Clean` keeps has the shape of `cleanStack`, whatever it reads. -/
theorem cleanElem_cleanStack (r : Bool) (out : List Str) (e : Str)
    (he : ∀ c ∈ e, isPathSeparator c = false) (h : cleanStack r out = true) :
    cleanStack r (cleanElem r out e) = true := by
  by_cases h1 : e = [] ∨ e = ['.']
  · simp only [cleanElem, h1, if_true]
    exact h
  · by_cases h2 : e = ['.', '.']
    · subst h2
      cases out with
      | nil => cases r <;> simp [cleanElem, cleanStack]
      | cons top rest =>
        by_cases ht : top = ['.', '.']
        · subst ht
          simp only [cleanStack, if_true, Bool.and_eq_true, Bool.not_eq_true'] at h
          simp [cleanElem, cleanStack, h.1, h.2]
        · have htail := cleanStack_tail r top rest h
          simpa [cleanElem, ht] using htail
    · have hp : properName e = true := by
        rw [properName_iff]
        exact ⟨fun e0 => h1 (Or.inl e0), fun e0 => h1 (Or.inr e0), h2, he⟩
      simp [cleanElem, h1, cleanStack, h2, hp, h]

theorem cleanScan_cleanStack (r : Bool) (chars cur : Str) (out : List Str)
    (hcur : ∀ c ∈ cur, isPathSeparator c = false) (h : cleanStack r out = true) :
    cleanStack r (cleanScan r chars cur out) = true := by
  induction chars generalizing cur out with
  | nil => exact cleanElem_cleanStack r out cur hcur h
  | cons c chars ih =>
    unfold cleanScan
    split_ifs with hc
    · exact ih [] _ (by simp) (cleanElem_cleanStack r out cur hcur h)
    · refine ih (cur ++ [c]) out ?_ h
      intro x hx
      rcases List.mem_append.mp hx with hx | hx
      · exact hcur x hx
      · simp only [List.mem_singleton] at hx
        subst hx
        simpa using hc

/-- Reading the elements of a clean path again keeps all of them. -/
theorem foldl_cleanElem_cleanStack (r : Bool) (out : List Str) (h : cleanStack r out = true) :
    out.reverse.foldl (cleanElem r) [] = out := by
  induction out with
  | nil => rfl
  | cons e rest ih =>
    rw [List.reverse_cons, List.foldl_append, ih (cleanStack_tail r e rest h)]
    simp only [List.foldl_cons, List.foldl_nil]
    unfold cleanStack at h
    split_ifs at h with he
    · subst he
      simp only [Bool.and_eq_true, Bool.not_eq_true'] at h
      cases rest with
      | nil => simp [cleanElem, h.1]
      | cons top rest' =>
        have ht : top = ['.', '.'] := by
          have := h.2
          simp only [List.all_cons, Bool.and_eq_true, decide_eq_true_eq] at this
          exact this.1
        simp [cleanElem, ht]
    · simp only [Bool.and_eq_true] at h
      exact cleanElem_proper r rest e h.1

theorem Clean_cons (c : Char) (rest : Str) :
    Clean (c :: rest) =
      renderPath (isPathSeparator c)
        (cleanScan (isPathSeparator c) (c :: rest) [] []).reverse := rfl

/-- The result of `filepath.Clean` is always the rendering of a clean stack. -/
theorem Clean_shape (path : Str) :
    ∃ (r : Bool) (out : List Str), cleanStack r out = true ∧
      Clean path = renderPath r out.reverse := by
  cases path with
  | nil => exact ⟨false, [], rfl, rfl⟩
  | cons c rest =>
    exact ⟨isPathSeparator c, _, cleanScan_cleanStack _ _ [] [] (by simp) rfl, Clean_cons c rest⟩

theorem cleanScan_proper (r : Bool) (n : Str) (out : List Str) (hn : properName n = true) :
    cleanScan r n [] out = n :: out := by
  obtain ⟨_, _, _, h4⟩ := (properName_iff n).mp hn
  have h := cleanScan_name r n [] [] out h4
  rw [List.append_nil] at h
  rw [h]
  simp [cleanScan, cleanElem_proper r out n hn]

theorem intercalate_head (out : List Str) (hout : out ≠ []) (h : cleanStack false out = true) :
    ∃ c t, List.intercalate ['/'] out.reverse = c :: t ∧ isPathSeparator c = false := by
  cases hr : out.reverse with
  | nil => exact absurd (List.reverse_eq_nil_iff.mp hr) hout
  | cons e es =>
    have hmem : e ∈ out := List.mem_reverse.mp (by rw [hr]; exact List.mem_cons_self _ _)
    obtain ⟨hne, hsep⟩ := cleanStack_sepFree false out h e hmem
    cases e with
    | nil => exact absurd rfl hne
    | cons c e' =>
      exact ⟨c, _, by rw [intercalate_cons_eq]; rfl, hsep c (List.mem_cons_self _ _)⟩

theorem cleanStack_elems_sepFree (r : Bool) (out : List Str) (h : cleanStack r out = true) :
    ∀ e ∈ out.reverse, ∀ c ∈ e, isPathSeparator c = false :=
  fun e he => (cleanStack_sepFree r out h e (List.mem_reverse.mp he)).2

/-- Joining a proper name to a clean path keeps the path and appends the
name. -/
theorem Clean_join_name (r : Bool) (out : List Str) (n : Str)
    (h : cleanStack r out = true) (hn : properName n = true) :
    Clean (renderPath r out.reverse ++ '/' :: n) = renderPath r (out.reverse ++ [n]) := by
  have hsf := cleanStack_elems_sepFree r out h
  have hfold := foldl_cleanElem_cleanStack r out h
  cases r with
  | true =>
    have hT : renderPath true out.reverse ++ '/' :: n
        = '/' :: (List.intercalate ['/'] out.reverse ++ '/' :: n) := by
      simp [renderPath]
    rw [hT, Clean_cons]
    have hscan : cleanScan true ('/' :: (List.intercalate ['/'] out.reverse ++ '/' :: n)) [] []
        = n :: out := by
      have h0 : cleanScan true ('/' :: (List.intercalate ['/'] out.reverse ++ '/' :: n)) [] []
          = cleanScan true (List.intercalate ['/'] out.reverse ++ '/' :: n) [] [] := by
        simp [cleanScan, isPathSeparator, cleanElem_nil]
      rw [h0, cleanScan_intercalate true _ _ _ hsf, hfold, cleanScan_proper true n out hn]
    have hsep : isPathSeparator '/' = true := rfl
    rw [hsep, hscan]
    simp
  | false =>
    by_cases hout : out = []
    · subst hout
      obtain ⟨h1, h2, h3, h4⟩ := (properName_iff n).mp hn
      have hT : renderPath false ([] : List Str).reverse ++ '/' :: n = '.' :: '/' :: n := by
        simp [renderPath]
      rw [hT, Clean_cons]
      have hsep : isPathSeparator '.' = false := rfl
      have hscan : cleanScan false ('.' :: '/' :: n) [] [] = [n] := by
        have h0 : cleanScan false ('.' :: '/' :: n) [] [] = cleanScan false n [] [] := by
          simp [cleanScan, isPathSeparator, cleanElem]
        rw [h0, cleanScan_proper false n [] hn]
      rw [hsep, hscan]
      simp
    · obtain ⟨c, t, hct, hc⟩ := intercalate_head out hout h
      have hne : out.reverse ≠ [] := fun e => hout (List.reverse_eq_nil_iff.mp e)
      have hT : renderPath false out.reverse ++ '/' :: n
          = List.intercalate ['/'] out.reverse ++ '/' :: n := by
        simp [renderPath, hne]
      have hscan : cleanScan false (List.intercalate ['/'] out.reverse ++ '/' :: n) [] []
          = n :: out := by
        rw [cleanScan_intercalate false _ _ _ hsf, hfold, cleanScan_proper false n out hn]
      rw [hT]
      have hshape : List.intercalate ['/'] out.reverse ++ '/' :: n = c :: (t ++ '/' :: n) := by
        rw [hct]; rfl
      have hclean : Clean (c :: (t ++ '/' :: n)) = renderPath false
          (cleanScan false (c :: (t ++ '/' :: n)) [] []).reverse := by
        rw [Clean_cons, hc]
      rw [hshape, hclean, ← hshape, hscan]
      simp

/-- A clean path extended by a proper name splits into the name and what is
before it, which ends in a separator (or is empty) and cleans to the path. -/
theorem renderPath_split (r : Bool) (out : List Str) (n : Str)
    (h : cleanStack r out = true) :
    ∃ A, renderPath r (out.reverse ++ [n]) = A ++ n ∧
      (A = [] ∨ ∃ A', A = A' ++ ['/']) ∧ Clean A = renderPath r out.reverse := by
  have hsf := cleanStack_elems_sepFree r out h
  have hfold := foldl_cleanElem_cleanStack r out h
  by_cases hout : out = []
  · subst hout
    cases r with
    | true =>
      exact ⟨['/'], by simp [renderPath, List.intercalate], Or.inr ⟨[], rfl⟩, by decide⟩
    | false =>
      exact ⟨[], by simp [renderPath, List.intercalate], Or.inl rfl, by decide⟩
  · have hne : out.reverse ≠ [] := fun e => hout (List.reverse_eq_nil_iff.mp e)
    have hcat := intercalate_concat ['/'] n out.reverse hne
    cases r with
    | true =>
      refine ⟨'/' :: (List.intercalate ['/'] out.reverse ++ ['/']), ?_,
        Or.inr ⟨'/' :: List.intercalate ['/'] out.reverse, rfl⟩, ?_⟩
      · simp [renderPath, hcat]
      · rw [Clean_cons]
        have hsep : isPathSeparator '/' = true := rfl
        have hscan : cleanScan true ('/' :: (List.intercalate ['/'] out.reverse ++ ['/'])) [] []
            = out := by
          have h0 : cleanScan true ('/' :: (List.intercalate ['/'] out.reverse ++ ['/'])) [] []
              = cleanScan true (List.intercalate ['/'] out.reverse ++ '/' :: []) [] [] := by
            simp [cleanScan, isPathSeparator, cleanElem_nil]
          rw [h0, cleanScan_intercalate true _ _ _ hsf, hfold]
          simp [cleanScan, cleanElem_nil]
        rw [hsep, hscan]
    | false =>
      obtain ⟨c, t, hct, hc⟩ := intercalate_head out hout h
      refine ⟨List.intercalate ['/'] out.reverse ++ ['/'], ?_,
        Or.inr ⟨List.intercalate ['/'] out.reverse, rfl⟩, ?_⟩
      · simp [renderPath, hcat]
      · have hscan : cleanScan false (List.intercalate ['/'] out.reverse ++ '/' :: []) [] []
            = out := by
          rw [cleanScan_intercalate false _ _ _ hsf, hfold]
          simp [cleanScan, cleanElem_nil]
        have hshape : List.intercalate ['/'] out.reverse ++ ['/'] = c :: (t ++ ['/']) := by
          rw [hct]; rfl
        have hclean : Clean (c :: (t ++ ['/'])) = renderPath false
            (cleanScan false (c :: (t ++ ['/'])) [] []).reverse := by
          rw [Clean_cons, hc]
        rw [hshape, hclean, ← hshape, hscan]

theorem renderPath_ne_nil (r : Bool) (out : List Str) (h : cleanStack r out = true) :
    renderPath r out.reverse ≠ [] := by
  cases r with
  | true => simp [renderPath]
  | false =>
    by_cases hout : out = []
    · subst hout
      simp [renderPath]
    · obtain ⟨c, t, hct, _⟩ := intercalate_head out hout h
      have hne : out.reverse ≠ [] := fun e => hout (List.reverse_eq_nil_iff.mp e)
      simp [renderPath, hne, hct]

theorem TrimSuffix_append (stem suffix : Str) : TrimSuffix (stem ++ suffix) suffix = stem := by
  have h : suffix.isSuffixOf (stem ++ suffix) = true := by
    rw [List.isSuffixOf_iff_suffix]
    exact List.suffix_append _ _
  simp [TrimSuffix, h]

theorem properName_of_long (n : Str) (hlen : 3 ≤ n.length)
    (hsep : ∀ c ∈ n, isPathSeparator c = false) : properName n = true := by
  rw [properName_iff]
  refine ⟨?_, ?_, ?_, hsep⟩
  · rintro rfl
    simp at hlen
  · rintro rfl
    simp at hlen
  · rintro rfl
    simp at hlen

/-- Where the output goes, for the file name `stem ++ tail` joined to the
cleaned directory part. -/
theorem finalLocation_parts (pre stem tail : Str)
    (hstem : ∀ c ∈ stem, isPathSeparator c = false)
    (htail : ∀ c ∈ tail, isPathSeparator c = false) (hlen : 3 ≤ tail.length) :
    Dir (Join (Clean pre) (stem ++ tail)) = Clean pre ∧
    Base (Join (Clean pre) (stem ++ tail)) = stem ++ tail := by
  have hsep : ∀ c ∈ stem ++ tail, isPathSeparator c = false := by
    intro c hc
    rcases List.mem_append.mp hc with hc | hc
    · exact hstem c hc
    · exact htail c hc
  have hproper : properName (stem ++ tail) = true :=
    properName_of_long _ (by rw [List.length_append]; omega) hsep
  have hne : stem ++ tail ≠ [] := ((properName_iff _).mp hproper).1
  obtain ⟨r, out, hstack, hclean⟩ := Clean_shape pre
  have hD : Clean pre ≠ [] := by
    rw [hclean]
    exact renderPath_ne_nil r out hstack
  have hjoin : Join (Clean pre) (stem ++ tail) = renderPath r (out.reverse ++ [stem ++ tail]) := by
    unfold Join
    rw [if_neg hD, hclean]
    exact Clean_join_name r out _ hstack hproper
  obtain ⟨A, hA, hAend, hAclean⟩ := renderPath_split r out (stem ++ tail) hstack
  rw [hjoin, hA]
  constructor
  · unfold Dir
    rw [rdropWhile_append_name A _ hsep hAend, hAclean, hclean]
  · exact Base_append_name A _ hne hsep hAend

/-- C6. For every input path whose extension is exactly `.csv` and each mode,
the output path computed by `createStringWriter` has the directory of the input
(`filepath.Dir`), and its file name (`filepath.Base`) is the input's base name
with the extension `.csv` stripped, followed by `-pretty.json` when pretty is
true and `-compact.json` when it is false; hence the pretty and the compact
output of one input never have the same path. -/
theorem finalLocation_spec (csvPath : Str) (pretty : Bool)
    (hext : Ext csvPath = ".csv".toList) :
    (createStringWriter csvPath pretty).path = finalLocation csvPath pretty ∧
    Dir (finalLocation csvPath pretty) = Dir csvPath ∧
    Base (finalLocation csvPath pretty) =
      TrimSuffix (Base csvPath) ".csv".toList
        ++ (if pretty then "-pretty.json".toList else "-compact.json".toList) ∧
    TrimSuffix (Base csvPath) ".csv".toList ++ ".csv".toList = Base csvPath ∧
    finalLocation csvPath true ≠ finalLocation csvPath false := by
  obtain ⟨v, hv⟩ := Ext_csv csvPath hext
  obtain ⟨pre, stem, hsplit, hstem, hpre⟩ := path_split v
  have hcsv : ∀ c ∈ ".csv".toList, isPathSeparator c = false := by decide
  have hname : ∀ c ∈ stem ++ ".csv".toList, isPathSeparator c = false := by
    intro c hc
    rcases List.mem_append.mp hc with hc | hc
    · exact hstem c hc
    · exact hcsv c hc
  have hpath : csvPath = pre ++ (stem ++ ".csv".toList) := by
    rw [hv, hsplit, List.append_assoc]
  have hbase : Base csvPath = stem ++ ".csv".toList := by
    rw [hpath]
    exact Base_append_name pre _ (by simp) hname hpre
  have hdir : Dir csvPath = Clean pre := by
    rw [hpath]
    unfold Dir
    rw [rdropWhile_append_name pre _ hname hpre]
  have htrim : TrimSuffix (Base csvPath) ".csv".toList = stem := by
    rw [hbase]
    exact TrimSuffix_append stem _
  have hloc : ∀ b : Bool, finalLocation csvPath b =
      Join (Clean pre) (stem ++ (if b then "-pretty.json".toList else "-compact.json".toList)) := by
    intro b
    unfold finalLocation
    rw [htrim, hdir]
    cases b <;> simp
  have hparts : ∀ b : Bool,
      Dir (finalLocation csvPath b) = Clean pre ∧
      Base (finalLocation csvPath b) =
        stem ++ (if b then "-pretty.json".toList else "-compact.json".toList) := by
    intro b
    rw [hloc b]
    cases b
    · exact finalLocation_parts pre stem _ hstem (by decide) (by decide)
    · exact finalLocation_parts pre stem _ hstem (by decide) (by decide)
  refine ⟨rfl, ?_, ?_, ?_, ?_⟩
  · rw [(hparts pretty).1, hdir]
  · rw [(hparts pretty).2, htrim]
  · rw [htrim, hbase]
  · intro heq
    have hb : Base (finalLocation csvPath true) = Base (finalLocation csvPath false) := by
      rw [heq]
    rw [(hparts true).2, (hparts false).2] at hb
    have := List.append_cancel_left hb
    exact absurd this (by decide)

/-- The input `data/in.csv`: its outputs are `data/in-pretty.json` and
`data/in-compact.json`. -/
theorem finalLocation_spec_witness :
    (finalLocation "data/in.csv".toList true = "data/in-pretty.json".toList ∧
      finalLocation "data/in.csv".toList false = "data/in-compact.json".toList) ∧
    ((createStringWriter "data/in.csv".toList true).path
        = finalLocation "data/in.csv".toList true ∧
      Dir (finalLocation "data/in.csv".toList true) = Dir "data/in.csv".toList ∧
      Base (finalLocation "data/in.csv".toList true) =
        TrimSuffix (Base "data/in.csv".toList) ".csv".toList
          ++ (if true = true then "-pretty.json".toList else "-compact.json".toList) ∧
      TrimSuffix (Base "data/in.csv".toList) ".csv".toList ++ ".csv".toList
        = Base "data/in.csv".toList ∧
      finalLocation "data/in.csv".toList true ≠ finalLocation "data/in.csv".toList false) :=
  ⟨⟨by decide, by decide⟩, finalLocation_spec "data/in.csv".toList true (by decide)⟩

/-! ## `run` on an empty input file -/

theorem run_accepted (fileLocation separator : Str) (pretty : Bool)
    (records : List (List Str)) (schedule : List Goroutine)
    (hsep : separator = "comma".toList ∨ separator = "semicolon".toList)
    (hext : Ext fileLocation = ".csv".toList) :
    run fileLocation separator pretty true records schedule =
      schedule.foldl (step fileLocation pretty records) startState := by
  have h1 : GetFileData fileLocation pretty separator =
      Except.ok { Filepath := fileLocation, separator := separator, Pretty := pretty } := by
    rcases hsep with h | h <;> simp [GetFileData, h]
  simp [run, h1, IsValidFile, hext]

theorem writeRows_concat (jsonFunc : Record → Str) (b : Str) (f : OutFile) (first : Bool)
    (w : List Record) (r : Record) :
    writeRows jsonFunc b f first (w ++ [r]) =
      writeRecord jsonFunc b (writeRows jsonFunc b f first w) (first && decide (w = [])) r := by
  induction w generalizing f first with
  | nil => simp [writeRows]
  | cons x w ih => simp [writeRows, ih]

theorem writeLoop_eq_writeRows (jsonFunc : Record → Str) (b : Str) (f : OutFile) (first : Bool)
    (rows : List Record) :
    writeLoop jsonFunc b f first rows =
      writeString (writeRows jsonFunc b f first rows) (b ++ [']']) true := by
  induction rows generalizing f first with
  | nil => rfl
  | cons r rows ih => simp [writeLoop, writeRows, ih]

theorem WriteJSONFile_eq_openFile (csvPath : Str) (rows : List Record) (pretty : Bool) :
    WriteJSONFile csvPath rows pretty =
      writeString (openFile csvPath pretty rows) ((getJSONFunc pretty).2 ++ [']']) true := by
  simp [WriteJSONFile, openFile, writeLoop_eq_writeRows]

theorem handOver_runInv (csvPath : Str) (pretty : Bool) (records : List (List Str))
    (s : RunState) (received : List Record) (record : Record) (headers : List Str)
    (rest : List ReadResult)
    (he : s.exitStatus = none) (hd : s.done = false) (hc : s.chanClosed = false)
    (hfile : s.file = some (openFile csvPath pretty received))
    (hsent : (ProcessCSVFile records).sent
      = received ++ record :: (processLoop headers rest).sent) :
    runInv csvPath pretty records
      (handOver s record headers rest (decide (received = []))) := by
  refine Or.inr (Or.inr ⟨he, hd, received ++ [record], ?_, ?_⟩)
  · exact Or.inr (Or.inr (Or.inr (Or.inl ⟨received, record, rfl, rfl, hfile⟩)))
  · refine Or.inr (Or.inl ⟨headers, rest, rfl, ?_, hc⟩)
    rw [hsent]
    simp

theorem stepReader_runInv (csvPath : Str) (pretty : Bool) (records : List (List Str))
    (s : RunState) (received : List Record)
    (he : s.exitStatus = none) (hd : s.done = false)
    (hw : writerInv csvPath pretty received s)
    (hr : readerInv records (ProcessCSVFile records).sent received s) :
    runInv csvPath pretty records (stepReader records s) := by
  obtain ⟨reader, writer, file, chanClosed, done, exitStatus⟩ := s
  simp only at he hd
  subst he hd
  rcases hr with ⟨hpc, hw0, _, hc⟩ | ⟨headers, rest, hpc, hsent, hc⟩ |
    ⟨record, headers, rest, hpc, hsent, hc⟩ | ⟨hpc, hsent, hc⟩
  · simp only at hpc hc
    subst hpc hc hw0
    cases hra : readAll 0 records with
    | nil => exact Or.inl (by simp [stepReader, hra, ExitGracefully])
    | cons r rs =>
      obtain ⟨hdr, err⟩ := r
      cases err with
      | some e => exact Or.inl (by simp [stepReader, hra, ExitGracefully])
      | none =>
        refine Or.inr (Or.inr ⟨by simp [stepReader, hra], by simp [stepReader, hra], [], ?_, ?_⟩)
        · simpa [stepReader, hra, writerInv] using hw
        · refine Or.inr (Or.inl ⟨hdr, rs, by simp [stepReader, hra], ?_, by simp [stepReader, hra]⟩)
          simp [ProcessCSVFile, hra]
  · simp only at hpc hc
    subst hpc hc
    cases rest with
    | nil =>
      refine Or.inr (Or.inr ⟨by simp [stepReader], by simp [stepReader], received, ?_, ?_⟩)
      · simpa [stepReader, writerInv] using hw
      · refine Or.inr (Or.inr (Or.inr ⟨by simp [stepReader], ?_, by simp [stepReader]⟩))
        simpa [processLoop] using hsent
    | cons r rest =>
      obtain ⟨line, err⟩ := r
      cases err with
      | some e => exact Or.inl (by simp [stepReader, ExitGracefully])
      | none =>
        have hcons := (processLoop_cons_ok headers line rest).1
        cases hpl : processLine headers line with
        | error msg =>
          refine Or.inr (Or.inr ⟨by simp [stepReader, hpl], by simp [stepReader, hpl],
            received, ?_, ?_⟩)
          · simpa [stepReader, hpl, writerInv] using hw
          · refine Or.inr (Or.inl ⟨headers, rest, by simp [stepReader, hpl], ?_,
              by simp [stepReader, hpl]⟩)
            rw [hsent, hcons, hpl]
            simp
        | ok record =>
          refine Or.inr (Or.inr ⟨by simp [stepReader, hpl], by simp [stepReader, hpl],
            received, ?_, ?_⟩)
          · simpa [stepReader, hpl, writerInv] using hw
          · refine Or.inr (Or.inr (Or.inl ⟨record, headers, rest, by simp [stepReader, hpl], ?_,
              by simp [stepReader, hpl]⟩))
            rw [hsent, hcons, hpl]
            simp
  · simp only at hpc hc
    subst hpc hc
    have hreader : readerInv records (ProcessCSVFile records).sent received
        { reader := ReaderPC.sending record headers rest, writer := writer, file := file,
          chanClosed := false, done := false, exitStatus := none } :=
      Or.inr (Or.inr (Or.inl ⟨record, headers, rest, rfl, hsent, rfl⟩))
    rcases hw with ⟨hwpc, hf, hrec⟩ | ⟨hwpc, hf, hrec⟩ | ⟨hwpc, hf⟩ |
      ⟨earlier, r0, hrec, hwpc, hf⟩ | ⟨earlier, r0, hrec, hwpc, hf⟩
    · simp only at hwpc hf
      subst hwpc hf
      exact Or.inr (Or.inr ⟨rfl, rfl, received, Or.inl ⟨rfl, rfl, hrec⟩, hreader⟩)
    · simp only at hwpc hf
      subst hwpc hf
      exact Or.inr (Or.inr ⟨rfl, rfl, received, Or.inr (Or.inl ⟨rfl, rfl, hrec⟩), hreader⟩)
    · simp only at hwpc hf
      subst hwpc hf
      have := handOver_runInv csvPath pretty records
        { reader := ReaderPC.sending record headers rest,
          writer := WriterPC.receiving (decide (received = [])),
          file := some (openFile csvPath pretty received), chanClosed := false, done := false,
          exitStatus := none } received record headers rest rfl rfl rfl rfl hsent
      simpa [stepReader] using this
    · simp only at hwpc hf
      subst hwpc hf
      exact Or.inr (Or.inr ⟨rfl, rfl, received,
        Or.inr (Or.inr (Or.inr (Or.inl ⟨earlier, r0, hrec, rfl, rfl⟩))), hreader⟩)
    · simp only at hwpc hf
      subst hwpc hf
      exact Or.inr (Or.inr ⟨rfl, rfl, received,
        Or.inr (Or.inr (Or.inr (Or.inr ⟨earlier, r0, hrec, rfl, rfl⟩))), hreader⟩)
  · simp only at hpc hc
    subst hpc hc
    refine Or.inr (Or.inr ⟨by simp [stepReader], by simp [stepReader], received, ?_, ?_⟩)
    · simpa [stepReader, writerInv] using hw
    · exact Or.inr (Or.inr (Or.inr ⟨by simp [stepReader], hsent, by simp [stepReader]⟩))

theorem stepWriter_runInv (csvPath : Str) (pretty : Bool) (records : List (List Str))
    (s : RunState) (received : List Record)
    (he : s.exitStatus = none) (hd : s.done = false)
    (hw : writerInv csvPath pretty received s)
    (hr : readerInv records (ProcessCSVFile records).sent received s) :
    runInv csvPath pretty records (stepWriter csvPath pretty s) := by
  obtain ⟨reader, writer, file, chanClosed, done, exitStatus⟩ := s
  simp only at he hd
  subst he hd
  rcases hw with ⟨hwpc, hf, hrec⟩ | ⟨hwpc, hf, hrec⟩ | ⟨hwpc, hf⟩ |
    ⟨earlier, r0, hrec, hwpc, hf⟩ | ⟨earlier, r0, hrec, hwpc, hf⟩
  · simp only at hwpc hf
    subst hwpc hf hrec
    refine Or.inr (Or.inr ⟨by simp [stepWriter], by simp [stepWriter], [], ?_, ?_⟩)
    · exact Or.inr (Or.inl ⟨by simp [stepWriter], by simp [stepWriter], rfl⟩)
    · simpa [stepWriter, readerInv] using hr
  · simp only at hwpc hf
    subst hwpc hf hrec
    refine Or.inr (Or.inr ⟨by simp [stepWriter], by simp [stepWriter], [], ?_, ?_⟩)
    · exact Or.inr (Or.inr (Or.inl ⟨by simp [stepWriter],
        by simp [stepWriter, openFile, writeRows]⟩))
    · simpa [stepWriter, readerInv] using hr
  · simp only at hwpc hf
    subst hwpc hf
    rcases hr with ⟨hpc, hw0, hs, hc⟩ | ⟨headers, rest, hpc, hsent, hc⟩ |
      ⟨record, headers, rest, hpc, hsent, hc⟩ | ⟨hpc, hsent, hc⟩
    · simp only at hpc hc
      subst hpc hc
      refine Or.inr (Or.inr ⟨by simp [stepWriter], by simp [stepWriter], received, ?_, ?_⟩)
      · exact Or.inr (Or.inr (Or.inl ⟨by simp [stepWriter], by simp [stepWriter]⟩))
      · exact Or.inl ⟨by simp [stepWriter], hw0, hs, by simp [stepWriter]⟩
    · simp only at hpc hc
      subst hpc hc
      refine Or.inr (Or.inr ⟨by simp [stepWriter], by simp [stepWriter], received, ?_, ?_⟩)
      · exact Or.inr (Or.inr (Or.inl ⟨by simp [stepWriter], by simp [stepWriter]⟩))
      · exact Or.inr (Or.inl ⟨headers, rest, by simp [stepWriter], hsent, by simp [stepWriter]⟩)
    · simp only at hpc hc
      subst hpc hc
      have := handOver_runInv csvPath pretty records
        { reader := ReaderPC.sending record headers rest,
          writer := WriterPC.receiving (decide (received = [])),
          file := some (openFile csvPath pretty received), chanClosed := false, done := false,
          exitStatus := none } received record headers rest rfl rfl rfl rfl hsent
      simpa [stepWriter] using this
    · simp only at hpc hc
      subst hpc hc
      refine Or.inr (Or.inl ⟨by simp [stepWriter], by simp [stepWriter], ?_⟩)
      rw [hsent, WriteJSONFile_eq_openFile]
      simp [stepWriter]
  · simp only at hwpc hf
    subst hwpc hf
    refine Or.inr (Or.inr ⟨by simp [stepWriter], by simp [stepWriter], received, ?_, ?_⟩)
    · exact Or.inr (Or.inr (Or.inr (Or.inr ⟨earlier, r0, hrec, by simp [stepWriter],
        by simp [stepWriter]⟩)))
    · simpa [stepWriter, readerInv] using hr
  · simp only at hwpc hf
    subst hwpc hf
    refine Or.inr (Or.inr ⟨by simp [stepWriter], by simp [stepWriter], received, ?_, ?_⟩)
    · refine Or.inr (Or.inr (Or.inl ⟨?_, ?_⟩))
      · simp [stepWriter, hrec]
      · rw [hrec]
        simp only [stepWriter, openFile, writeRows_concat, writeRecord, Bool.true_and]
    · simpa [stepWriter, readerInv] using hr

theorem step_runInv (csvPath : Str) (pretty : Bool) (records : List (List Str))
    (s : RunState) (g : Goroutine) (h : runInv csvPath pretty records s) :
    runInv csvPath pretty records (step csvPath pretty records s g) := by
  rcases h with ⟨he, hd⟩ | ⟨he, hd, hf⟩ | ⟨he, hd, received, hw, hr⟩
  · have : step csvPath pretty records s g = s := by simp [step, he]
    rw [this]
    exact Or.inl ⟨he, hd⟩
  · have : step csvPath pretty records s g = s := by simp [step, he]
    rw [this]
    exact Or.inr (Or.inl ⟨he, hd, hf⟩)
  · cases g with
    | reader =>
      have : step csvPath pretty records s Goroutine.reader = stepReader records s := by
        simp [step, he]
      rw [this]
      exact stepReader_runInv csvPath pretty records s received he hd hw hr
    | writer =>
      have : step csvPath pretty records s Goroutine.writer = stepWriter csvPath pretty s := by
        simp [step, he]
      rw [this]
      exact stepWriter_runInv csvPath pretty records s received he hd hw hr

theorem foldl_step_runInv (csvPath : Str) (pretty : Bool) (records : List (List Str))
    (schedule : List Goroutine) (s : RunState) (h : runInv csvPath pretty records s) :
    runInv csvPath pretty records (schedule.foldl (step csvPath pretty records) s) := by
  induction schedule generalizing s with
  | nil => exact h
  | cons g rest ih => exact ih _ (step_runInv csvPath pretty records s g h)

/-- Whatever the interleaving of the two goroutines, a run that signals
completion has written, and closed, exactly the file that `WriteJSONFile` writes
from the records that `ProcessCSVFile` sends, in their order, and ends with
status 0; a run never signals completion after a fatal error. -/
theorem run_done (fileLocation separator : Str) (pretty : Bool)
    (records : List (List Str)) (schedule : List Goroutine)
    (hsep : separator = "comma".toList ∨ separator = "semicolon".toList)
    (hext : Ext fileLocation = ".csv".toList)
    (hdone : (run fileLocation separator pretty true records schedule).done = true) :
    (run fileLocation separator pretty true records schedule).file =
        some (WriteJSONFile fileLocation (ProcessCSVFile records).sent pretty) ∧
    (run fileLocation separator pretty true records schedule).exitStatus = some 0 := by
  rw [run_accepted fileLocation separator pretty records schedule hsep hext] at hdone ⊢
  have hstart : runInv fileLocation pretty records startState :=
    Or.inr (Or.inr ⟨rfl, rfl, [], Or.inl ⟨rfl, rfl, rfl⟩, Or.inl ⟨rfl, rfl, rfl, rfl⟩⟩)
  rcases foldl_step_runInv fileLocation pretty records schedule startState hstart with
    ⟨_, hd⟩ | ⟨he, _, hf⟩ | ⟨_, hd, _⟩
  · rw [hd] at hdone
    cases hdone
  · exact ⟨hf, he⟩
  · rw [hd] at hdone
    cases hdone

/-- A run that completes: header `A,B`, the records `1,2` and `4,5`, the reader
and the writer taking turns. -/
theorem run_done_example :
    run "in.csv".toList "comma".toList false true
        [["A".toList, "B".toList], ["1".toList, "2".toList], ["4".toList, "5".toList]]
        [Goroutine.reader, Goroutine.reader, Goroutine.writer, Goroutine.writer,
          Goroutine.writer, Goroutine.writer, Goroutine.writer, Goroutine.reader,
          Goroutine.reader, Goroutine.reader, Goroutine.writer, Goroutine.writer,
          Goroutine.writer] =
      { reader := ReaderPC.finished, writer := WriterPC.finished,
        file := some
          { path := "in-compact.json".toList,
            content :=
              "[\x7b\"A\":\"1\",\"B\":\"2\"\x7d,\x7b\"A\":\"4\",\"B\":\"5\"\x7d]".toList,
            closed := true },
        chanClosed := true, done := true, exitStatus := some 0 } := by
  decide

/-- A run ended by the reader between the writer's receive and its write:
header `A,B`, the records `1,2`, `3` and `4,5`. The writer has received the
conversion of `1,2` and not yet written it when `Read` returns `ErrFieldCount`
for `3`; the output file is left holding the opening bracket. -/
theorem run_exit_before_write :
    run "in.csv".toList "comma".toList false true
        [["A".toList, "B".toList], ["1".toList, "2".toList], ["3".toList],
          ["4".toList, "5".toList]]
        [Goroutine.writer, Goroutine.writer, Goroutine.reader, Goroutine.reader,
          Goroutine.reader, Goroutine.reader, Goroutine.writer] =
      { reader := ReaderPC.reading ["A".toList, "B".toList]
          [(["3".toList], some ReadError.fieldCount), (["4".toList, "5".toList], none)],
        writer := WriterPC.holding true [("A".toList, "1".toList), ("B".toList, "2".toList)],
        file := some { path := "in-compact.json".toList, content := "[".toList, closed := false },
        chanClosed := false, done := false, exitStatus := some 1 } := by
  decide

/-! ## The number of elements -/

/-- The loop of `ProcessCSVFile` alone, were `Read` to return every data record
without error: it closes the channel without ending the process, skips exactly
the records whose field count differs from the header's, and sends one row
object for each of the others. The reader the program builds never returns a
record of differing field count without error. -/
theorem processLoop_count (headers : List Str) (records : List (List Str)) :
    (processLoop headers (records.map (fun r => (r, none)))).sent.length =
      records.length - (records.filter (fun r => r.length ≠ headers.length)).length ∧
    (processLoop headers (records.map (fun r => (r, none)))).skipped =
      records.filter (fun r => r.length ≠ headers.length) ∧
    (processLoop headers (records.map (fun r => (r, none)))).closed = true ∧
    (processLoop headers (records.map (fun r => (r, none)))).exitStatus = none := by
  have hok : ∀ r ∈ records.map (fun r => ((r, none) : ReadResult)), r.2 = none := by
    intro r hr
    obtain ⟨a, _, rfl⟩ := List.mem_map.mp hr
    rfl
  have hfst : (records.map (fun r => ((r, none) : ReadResult))).map Prod.fst = records := by
    simp [List.map_map, Function.comp_def]
  refine ⟨?_, ?_, (processLoop_sent headers _ hok).2.1, (processLoop_sent headers _ hok).2.2⟩
  · have h := processLoop_sent_length headers _ hok
    rw [hfst] at h
    exact h
  · rw [processLoop_skipped headers _ hok, List.filter_map, List.map_map]
    simp [Function.comp_def]

/-- C3 on the code. The file `A,B` / `1` / `2,3` has two data records, one of
which has a field count different from the header's, so the claim requires one
row object; `ProcessCSVFile` sends none: `Read` returns `ErrFieldCount` for the
record `1` and the process exits with status 1 before the channel is closed. In
a run the output file then holds the opening bracket and no element. On the
file `A,B` / `1,2` / `3` / `4,5` the claim requires two row objects and one is
sent. -/
theorem ProcessCSVFile_count_aborts :
    ([["1".toList], ["2".toList, "3".toList]].length
        - ([["1".toList], ["2".toList, "3".toList]].filter
            (fun r => r.length ≠ ["A".toList, "B".toList].length)).length = 1 ∧
      (ProcessCSVFile
        [["A".toList, "B".toList], ["1".toList], ["2".toList, "3".toList]]).sent.length = 0 ∧
      (ProcessCSVFile
        [["A".toList, "B".toList], ["1".toList], ["2".toList, "3".toList]]).closed = false ∧
      (ProcessCSVFile
        [["A".toList, "B".toList], ["1".toList], ["2".toList, "3".toList]]).exitStatus
          = some 1) ∧
    ((run "in.csv".toList "comma".toList false true
        [["A".toList, "B".toList], ["1".toList], ["2".toList, "3".toList]]
        [Goroutine.reader, Goroutine.writer, Goroutine.writer, Goroutine.reader,
          Goroutine.writer, Goroutine.reader]).file =
        some { path := "in-compact.json".toList, content := "[".toList, closed := false } ∧
      (run "in.csv".toList "comma".toList false true
        [["A".toList, "B".toList], ["1".toList], ["2".toList, "3".toList]]
        [Goroutine.reader, Goroutine.writer, Goroutine.writer, Goroutine.reader,
          Goroutine.writer, Goroutine.reader]).exitStatus = some 1) ∧
    ([["1".toList, "2".toList], ["3".toList], ["4".toList, "5".toList]].length
        - ([["1".toList, "2".toList], ["3".toList], ["4".toList, "5".toList]].filter
            (fun r => r.length ≠ ["A".toList, "B".toList].length)).length = 2 ∧
      (ProcessCSVFile
        [["A".toList, "B".toList], ["1".toList, "2".toList], ["3".toList],
          ["4".toList, "5".toList]]).sent.length = 1 ∧
      (ProcessCSVFile
        [["A".toList, "B".toList], ["1".toList, "2".toList], ["3".toList],
          ["4".toList, "5".toList]]).exitStatus = some 1) := by
  refine ⟨⟨by decide, by decide, by decide, by decide⟩, ⟨by decide, by decide⟩,
    ⟨by decide, by decide, by decide⟩⟩

end FormatConverter
